import Mathlib

/-!
The Tetris game engine of `src/main.go`.

A shallow embedding of the game-state engine (`rotate`, `collides`, `add`,
`clear`, `input`, `update`, `init`) together with theorems about it.

Modelling conventions.

* Go's `int` is taken as the 64-bit two's complement integer of the usual
  platforms (amd64, arm64).  A state holds its `int` fields as `Int`, and every
  `+`, `-`, `++`, `--`, `+=` and `<<` of the source is computed and then reduced
  to the 64-bit range (`add64`, `sub64`, `shl64`); `isInt64` says that an
  integer is a value of `int`.  `/` on `int` truncates toward zero and is
  `Int.tdiv`; the divisors of the source are positive, so it needs no reduction.
* A run-time panic (index out of range, integer division by zero,
  `rand.Intn` with a non-positive argument) is the result `none`.
* A `[][]int` board is a `List (List Int)`; a cell is occupied when it is not `0`.
* `g.current = g.tetrominos[i]` copies a slice header, not the points: the
  active block then shares its backing array with catalog entry `i`, and
  `rotate`, which writes `b.points[i]` in place, writes the catalog entry too.
  `pieceRef` records where the points of the active block live.
* The rune read from the terminal and the value drawn by `rand.Intn` are
  parameters of `input`, `update` and `init`.  `draw` and `time.Sleep` have no
  effect on the game state and are left out.
-/

namespace Tetris

/-! ## 64-bit integers -/

/-- Reduction of an integer to the range of a 64-bit signed `int`, from -2^63 to
2^63 - 1: the value left in a two's complement register. -/
def wrap64 (z : Int) : Int :=
  (z + 9223372036854775808) % 18446744073709551616 - 9223372036854775808

/-- Go's `a + b` on `int`. -/
def add64 (a b : Int) : Int :=
  wrap64 (a + b)

/-- Go's `a - b` on `int`. -/
def sub64 (a b : Int) : Int :=
  wrap64 (a - b)

/-- Go's `a << k` on `int`, for a shift count `k ≥ 0`. -/
def shl64 (a : Int) (k : Nat) : Int :=
  wrap64 (a * 2 ^ k)

/-- The integer is a value of Go's `int`. -/
def isInt64 (z : Int) : Prop :=
  -9223372036854775808 ≤ z ∧ z < 9223372036854775808

instance (z : Int) : Decidable (isInt64 z) := by
  unfold isInt64; infer_instance

/-! ## Data model -/

/-- Source: `type point struct { x, y int }`. -/
structure point where
  x : Int
  y : Int
deriving DecidableEq

/-- Source: `type block struct { points []point }`. -/
structure block where
  points : List point
deriving DecidableEq

/-- Location of the point array of the active block: an array of its own, or
the array of catalog entry `i` (the state after `g.current = g.tetrominos[i]`). -/
inductive pieceRef where
  | detached (b : block)
  | template (i : Nat)
deriving DecidableEq

/-- Source: `type game struct`.  The field `current` is a `pieceRef` so that the
sharing between the active block and the catalog is part of the state. -/
structure game where
  current : pieceRef
  h : Int
  w : Int
  lines : Int
  level : Int
  matrix : List (List Int)
  over : Bool
  pos : point
  score : Int
  tetrominos : List block
deriving DecidableEq

/-- The value of `g.current`: the block the active piece denotes. A reference to
a catalog entry that does not exist denotes the block without points. -/
def game.cur (g : game) : block :=
  match g.current with
  | .detached b => b
  | .template i => g.tetrominos.getD i ⟨[]⟩

/-! ## Geometry: `rotate` -/

/-- The first loop of `rotate`: `cx += p.x; cy += p.y` over the points. -/
def sumPoints : List point → Int × Int → Int × Int
  | [], acc => acc
  | p :: ps, acc => sumPoints ps (add64 acc.1 p.x, add64 acc.2 p.y)

/-- Source: `func (b *block) rotate()`.  `cx /= len(b.points)` panics on a block
without points. The second loop reads point `i` and then writes point `i`. -/
def block.rotate (b : block) : Option block :=
  let s := sumPoints b.points (0, 0)
  if b.points.length = 0 then none
  else
    let cx := Int.tdiv s.1 (b.points.length : Int)
    let cy := Int.tdiv s.2 (b.points.length : Int)
    some ⟨b.points.map fun p => ⟨add64 (sub64 cy p.y) cx, add64 (sub64 p.x cx) cy⟩⟩

/-- The call `g.current.rotate()`: the points are rewritten in place, so a block
that shares the array of catalog entry `i` rewrites that entry. -/
def game.rotateCurrent (g : game) : Option game :=
  match g.current with
  | .detached b => (b.rotate).map fun b1 => { g with current := .detached b1 }
  | .template i =>
    (g.cur.rotate).map fun b1 => { g with tetrominos := g.tetrominos.set i b1 }

/-! ## Board: `collides`, `add`, `clear` -/

/-- The loop of `collides` over the remaining points. The tests are made in the
order of the source, with `||` and `&&` short-circuiting; `len(g.matrix[0])`
panics on a board without rows and `g.matrix[y][x]` on a row that is too short. -/
def collidesLoop (m : List (List Int)) (pos : point) : List point → Option Bool
  | [] => some false
  | p :: ps =>
    let x := add64 pos.x p.x
    let y := add64 pos.y p.y
    if y ≥ (m.length : Int) then some true
    else if x < 0 then some true
    else
      match m.head? with
      | none => none
      | some row0 =>
        if x ≥ (row0.length : Int) then some true
        else if y ≥ 0 then
          match m[y.toNat]? with
          | none => none
          | some row =>
            match row[x.toNat]? with
            | none => none
            | some c => if c ≠ 0 then some true else collidesLoop m pos ps
        else collidesLoop m pos ps

/-- Source: `func (g *game) collides() bool`. -/
def game.collides (g : game) : Option Bool :=
  collidesLoop g.matrix g.pos g.cur.points

/-- The assignment `m[y][x] = 1` for `y ≥ 0`; an index out of range panics. -/
def setCell (m : List (List Int)) (y x : Int) : Option (List (List Int)) :=
  match m[y.toNat]? with
  | none => none
  | some row =>
    if x < 0 then none
    else if x.toNat < row.length then some (m.set y.toNat (row.set x.toNat 1))
    else none

/-- The loop of `add` over the remaining points. -/
def addLoop (pos : point) : List point → List (List Int) → Option (List (List Int))
  | [], m => some m
  | p :: ps, m =>
    let x := add64 pos.x p.x
    let y := add64 pos.y p.y
    if y ≥ 0 then
      match setCell m y x with
      | none => none
      | some m1 => addLoop pos ps m1
    else addLoop pos ps m

/-- Source: `func (g *game) add()`. -/
def game.add (g : game) : Option game :=
  (addLoop g.pos g.cur.points g.matrix).map fun m => { g with matrix := m }

/-- The inner loop of `clear`: `full` stays true unless a cell is `0`. -/
def rowFull : List Int → Bool
  | [] => true
  | c :: cs => if c = 0 then false else rowFull cs

/-- Go's builtin `copy(dst, src)`: the first `min (len dst) (len src)` elements of
`dst` are replaced by those of `src`; overlapping slices are handled as if `src`
were read first. The result is the new content of `dst`. -/
def goCopy {α : Type} (dst src : List α) : List α :=
  src.take dst.length ++ dst.drop src.length

/-- The body of `if full`: `copy(g.matrix[1:], g.matrix[:y])` and then
`g.matrix[0] = make([]int, len(g.matrix[0]))`. -/
def removeRow (m : List (List Int)) (y : Nat) : List (List Int) :=
  let m1 := m.take 1 ++ goCopy (m.drop 1) (m.take y)
  m1.set 0 (List.replicate (m1.headD []).length 0)

/-- The outer loop of `clear`, `for y := 0; y < len(g.matrix); y++`, with `n`
iterations left at row `y`; the result is the board and the counter `cleared`. -/
def clearLoop : Nat → Nat → List (List Int) → Nat → List (List Int) × Nat
  | 0, _, m, cleared => (m, cleared)
  | n + 1, y, m, cleared =>
    if rowFull (m.getD y []) then clearLoop n (y + 1) (removeRow m y) (cleared + 1)
    else clearLoop n (y + 1) m cleared

/-- Source: `func (g *game) clear()`. The counter `cleared` is at most the
number of rows. -/
def game.clear (g : game) : game :=
  let r := clearLoop g.matrix.length 0 g.matrix 0
  if r.2 > 0 then
    { g with
      matrix := r.1, lines := add64 g.lines (r.2 : Int),
      score := add64 g.score (shl64 100 r.2) }
  else { g with matrix := r.1 }

/-! ## Game state machine: `input`, `update`, `init` -/

/-- Source: `func (g *game) input()`, with the rune read from the terminal as
argument. -/
def game.input (g : game) (input : Char) : Option game :=
  if input = 'w' ∨ input = 'j' then g.rotateCurrent
  else if input = 'a' ∨ input = 'h' then
    let g1 := { g with pos := ⟨sub64 g.pos.x 1, g.pos.y⟩ }
    (g1.collides).map fun c => if c then { g1 with pos := ⟨add64 g1.pos.x 1, g1.pos.y⟩ } else g1
  else if input = 's' ∨ input = 'k' then
    let g1 := { g with pos := ⟨g.pos.x, add64 g.pos.y 1⟩ }
    (g1.collides).map fun c => if c then { g1 with pos := ⟨g1.pos.x, sub64 g1.pos.y 1⟩ } else g1
  else if input = 'd' ∨ input = 'l' then
    let g1 := { g with pos := ⟨add64 g.pos.x 1, g.pos.y⟩ }
    (g1.collides).map fun c => if c then { g1 with pos := ⟨sub64 g1.pos.x 1, g1.pos.y⟩ } else g1
  else if input = 'q' then some { g with over := true }
  else some g

/-- The block of `update` run when the gravity step collides: undo the step,
`add`, draw catalog entry `rand.Intn(len(g.tetrominos))` (here `r` reduced modulo
the length), reset the position and test for game over. -/
def game.lockAndSpawn (g : game) (r : Nat) : Option game :=
  match ({ g with pos := ⟨g.pos.x, sub64 g.pos.y 1⟩ } : game).add with
  | none => none
  | some g1 =>
    if g1.tetrominos.length = 0 then none
    else
      let g2 := { g1 with current := .template (r % g1.tetrominos.length) }
      match g2.matrix.head? with
      | none => none
      | some row0 =>
        let g3 := { g2 with pos := ⟨Int.tdiv (row0.length : Int) 2, 0⟩ }
        (g3.collides).map fun c => if c then { g3 with over := true } else g3

/-- Source: `func (g *game) update()`, with the random draw `r` as argument. -/
def game.update (g : game) (r : Nat) : Option game :=
  if g.over then some g
  else
    let g1 := if Int.tdiv g.lines 10 > g.level then { g with level := add64 g.level 1 } else g
    let g2 := { g1 with pos := ⟨g1.pos.x, add64 g1.pos.y 1⟩ }
    match g2.collides with
    | none => none
    | some true => (g2.lockAndSpawn r).map game.clear
    | some false => some g2.clear

/-- The largest size in bytes that the Go runtime allocates on a 64-bit platform
(`maxAlloc`, 2^48 on linux/amd64). -/
def maxAlloc : Int :=
  281474976710656

/-- The test of `make([]T, n)` for an element size of `size` bytes: the runtime
panics (`makeslice: len out of range`) when `n` is negative or the slice would
exceed `maxAlloc`. -/
def makePanics (size n : Int) : Bool :=
  decide (n < 0 ∨ maxAlloc < size * n)

/-- Source: `func (g *game) init(h, w int)`, with the random draw `r` as
argument. `make([][]int, h)` allocates `h` slice headers of 24 bytes and, for
each row, `make([]int, w)` allocates `w` cells of 8 bytes. A length that `make`
accepts is taken to be allocated: running out of memory is not modelled. -/
def game.init (g : game) (h w : Int) (r : Nat) : Option game :=
  if makePanics 24 h then none
  else if 0 < h ∧ makePanics 8 w then none
  else if g.tetrominos.length = 0 then none
  else
    some { g with
      matrix := List.replicate h.toNat (List.replicate w.toNat 0)
      current := .template (r % g.tetrominos.length)
      pos := ⟨Int.tdiv w 2, 0⟩ }

/-- The catalog built in `main`. -/
def catalog : List block :=
  [ ⟨[⟨0, 0⟩, ⟨0, 1⟩, ⟨0, 2⟩, ⟨0, 3⟩]⟩,
    ⟨[⟨0, 0⟩, ⟨0, 1⟩, ⟨1, 0⟩, ⟨1, 1⟩]⟩,
    ⟨[⟨0, 0⟩, ⟨0, 1⟩, ⟨0, 2⟩, ⟨1, 2⟩]⟩,
    ⟨[⟨0, 0⟩, ⟨0, 1⟩, ⟨0, 2⟩, ⟨-1, 2⟩]⟩,
    ⟨[⟨0, 0⟩, ⟨0, 1⟩, ⟨1, 1⟩, ⟨1, 2⟩]⟩,
    ⟨[⟨0, 0⟩, ⟨0, 1⟩, ⟨-1, 1⟩, ⟨-1, 2⟩]⟩,
    ⟨[⟨0, 0⟩, ⟨0, 1⟩, ⟨0, 2⟩, ⟨-1, 1⟩]⟩ ]

/-- The state of `main` before `game.init`: `new(game)` with `h`, `w` and
`tetrominos` assigned. -/
def newGame : game :=
  { current := .detached ⟨[]⟩, h := 20, w := 10, lines := 0, level := 0, matrix := [],
    over := false, pos := ⟨0, 0⟩, score := 0, tetrominos := catalog }

/-- The state of `main` after `game.init(game.h, game.w)` when `rand.Intn` drew `r`. -/
def start (r : Nat) : Option game :=
  newGame.init newGame.h newGame.w r

/-! ## Vocabulary of the statements and concrete states -/

/-- The content of the board cell in row y, column x, when there is one. -/
def cellAt (m : List (List Int)) (y x : Int) : Option Int :=
  if y < 0 ∨ x < 0 then none else (m[y.toNat]?).bind fun row => row[x.toNat]?

/-- The board has a cell in row y, column x, and it is occupied. -/
def occupied (m : List (List Int)) (y x : Int) : Bool :=
  match cellAt m y x with
  | some c => c != 0
  | none => false

/-- Every row of the board has w cells. -/
def rectangular (m : List (List Int)) (w : Nat) : Prop :=
  ∀ row ∈ m, row.length = w

instance (m : List (List Int)) (w : Nat) : Decidable (rectangular m w) := by
  unfold rectangular; infer_instance

/-- A row is full when every cell in it is occupied. -/
def isFull (row : List Int) : Bool :=
  row.all fun c => c != 0

/-- The empty board of `main`: 20 rows of 10 cells. -/
def emptyBoard : List (List Int) :=
  List.replicate 20 (List.replicate 10 0)

/-- A row of 10 occupied cells. -/
def fullRow : List Int :=
  List.replicate 10 1

/-- The scenario state: the I piece at (5, 0) over the empty 20 x 10 board. -/
def dropStart : game :=
  { newGame with matrix := emptyBoard, current := .template 0, pos := ⟨5, 0⟩ }

/-- A 20 x 10 board whose row 0 is empty and whose rows 1 to 19 are full. -/
def nineteenFull : game :=
  { newGame with matrix := List.replicate 10 0 :: List.replicate 19 fullRow }

/-- Sum of the x coordinates of a point sequence. -/
def sumX (ps : List point) : Int :=
  (ps.map fun p => p.x).sum

/-- Sum of the y coordinates of a point sequence. -/
def sumY (ps : List point) : Int :=
  (ps.map fun p => p.y).sum

/-- The image of a point under the quarter turn about (cx, cy), as `rotate`
computes it. -/
def turn (cx cy : Int) (p : point) : point :=
  ⟨add64 (sub64 cy p.y) cx, add64 (sub64 p.x cx) cy⟩

/-- The result of n successive calls of rotate. -/
def rotateTimes : Nat → block → Option block
  | 0, b => some b
  | n + 1, b => (b.rotate).bind (rotateTimes n)

/-- A four-point block whose coordinate sums, 4 and 4, are multiples of 4. -/
def ringBlock : block :=
  ⟨[⟨1, 0⟩, ⟨0, 1⟩, ⟨2, 1⟩, ⟨1, 2⟩]⟩

/-- The game state of the specification: board, active piece, position, score,
cleared-line count, level and the over flag. -/
structure GameState where
  board : List (List Int)
  piece : List point
  position : point
  score : Int
  linesCleared : Int
  level : Int
  over : Bool
deriving DecidableEq

/-- The specification's view of a state of the program. -/
def game.view (g : game) : GameState :=
  { board := g.matrix, piece := g.cur.points, position := g.pos, score := g.score,
    linesCleared := g.lines, level := g.level, over := g.over }

/-- The commands of the command table. -/
inductive Command where
  | rotate
  | moveLeft
  | moveDown
  | moveRight
  | quit
  | other
deriving DecidableEq

/-- The keys of the `switch` in `input` and the commands they stand for. -/
def Command.ofKey (c : Char) : Command :=
  if c = 'w' ∨ c = 'j' then .rotate
  else if c = 'a' ∨ c = 'h' then .moveLeft
  else if c = 's' ∨ c = 'k' then .moveDown
  else if c = 'd' ∨ c = 'l' then .moveRight
  else if c = 'q' then .quit
  else .other

/-- A translation of the command table: the position becomes q when the piece does not
collide there, and stays as it was otherwise. -/
def GameState.moveTo (s : GameState) (q : point) : Option GameState :=
  (collidesLoop s.board q s.piece).map fun c => if c then s else { s with position := q }

/-- The command table of the specification, over `collides` and `rotate`, with
`-= 1` and `+= 1` on `int`. -/
def HandleInput (s : GameState) : Command → Option GameState
  | .rotate => (block.rotate ⟨s.piece⟩).map fun b => { s with piece := b.points }
  | .moveLeft => s.moveTo ⟨sub64 s.position.x 1, s.position.y⟩
  | .moveDown => s.moveTo ⟨s.position.x, add64 s.position.y 1⟩
  | .moveRight => s.moveTo ⟨add64 s.position.x 1, s.position.y⟩
  | .quit => some { s with over := true }
  | .other => some s

/-- Successive calls of update, one per random draw of the list. -/
def ticks : List Nat → game → Option game
  | [], g => some g
  | r :: rs, g => (g.update r).bind (ticks rs)

/-- The I piece at (5, k) over the empty board: the scenario state after k rows of fall. -/
def fallen (k : Nat) : game :=
  { dropStart with pos := ⟨5, (k : Int)⟩ }

/-- The empty board with the cells (5,16), (5,17), (5,18), (5,19) occupied. -/
def landedBoard : List (List Int) :=
  List.replicate 16 (List.replicate 10 0) ++ List.replicate 4 [0, 0, 0, 0, 0, 1, 0, 0, 0, 0]

/-- One event of a play: a key handed to input, or a tick with its random draw. -/
inductive Event where
  | key (c : Char)
  | tick (r : Nat)
deriving DecidableEq

/-- The effect of one event. -/
def game.step (g : game) : Event → Option game
  | .key c => g.input c
  | .tick r => g.update r

/-- The effect of a sequence of events; a panic ends the play. -/
def play : List Event → game → Option game
  | [], g => some g
  | e :: es, g => (g.step e).bind (play es)

/-- One iteration of the loop of `main` after `draw`: `input` reads key c, then `update`
runs and draws r. -/
def frame (c : Char) (r : Nat) : List Event :=
  [.key c, .tick r]

/-- The 17 loop iterations that bring an I piece from the spawn position to column c
and lock it at the bottom: the first iterations read the move key, the others the
unbound key x, and every tick draws the I piece. -/
def dropInColumn (c : Nat) : List Event :=
  (List.range 17).flatMap fun k =>
    frame (if k < 5 - c then 'a' else if k < c - 5 then 'd' else 'x') 0

/-- One I piece dropped in each of the columns 0 to 9: four rows are filled and cleared. -/
def fillFourRows : List Event :=
  (List.range 10).flatMap dropInColumn

/-- Three rounds of `fillFourRows`: twelve rows are cleared. -/
def twelveLines : List Event :=
  fillFourRows ++ fillFourRows ++ fillFourRows

/-- The invariant of a play of `main`: a 20 x 10 board without a full row, a catalog of
seven four-point blocks one of which is the active block, and a level that is at most
one step behind the line count. -/
def game.sound (g : game) : Prop :=
  g.matrix.length = 20 ∧ rectangular g.matrix 10 ∧ (∀ row ∈ g.matrix, isFull row = false) ∧
    g.tetrominos.length = 7 ∧ (∀ b ∈ g.tetrominos, b.points.length = 4) ∧
    (∃ i, i < 7 ∧ g.current = .template i) ∧
    0 ≤ g.level ∧ 10 * g.level ≤ g.lines ∧ g.lines < 10 * g.level + 20

/-- A frame-by-frame play of `main` from init with the I piece: five iterations that read
the key a, which bring the piece to the left wall, then one that reads the rotate key w. -/
def rotateAtWall : List Event :=
  (List.range 5).flatMap (fun _ => frame 'a' 0) ++ frame 'w' 0

/-- The state of `main` with the two top rows of the board full and catalog piece i
at (5, 0). -/
def topFull (i : Nat) : game :=
  { newGame with
    matrix := fullRow :: fullRow :: List.replicate 18 (List.replicate 10 0),
    current := .template i, pos := ⟨5, 0⟩ }

/-- The points of a block moved by (dx, dy). -/
def translate (dx dy : Int) (ps : List point) : List point :=
  ps.map fun p => ⟨p.x + dx, p.y + dy⟩

/-- The level after the progression step at the start of `update`. -/
def game.nextLevel (g : game) : Int :=
  if Int.tdiv g.lines 10 > g.level then add64 g.level 1 else g.level

/-- The state of `update` just before `clear` when the gravity step collided: board m
after `add`, catalog entry `r % len` at the spawn position over row0 = m[0], and over
set to the result c of the spawn collision test. -/
def game.spawned (g : game) (m : List (List Int)) (row0 : List Int) (r : Nat) (c : Bool) :
    game :=
  { g with
    level := g.nextLevel, matrix := m, current := .template (r % g.tetrominos.length),
    pos := ⟨Int.tdiv (row0.length : Int) 2, 0⟩, over := c }

/-- The state after the tick on `topFull 0` that draws the I piece: the piece is locked
in column 5, the two full rows are removed, over is set. -/
def topFullEnd : game :=
  { newGame with
    matrix := List.replicate 2 (List.replicate 10 0) ++
      List.replicate 2 [0, 0, 0, 0, 0, 1, 0, 0, 0, 0] ++ List.replicate 16 (List.replicate 10 0),
    current := .template 0, pos := ⟨5, 0⟩, over := true, lines := 2, score := 400 }

/-- The state of the overflow example of `collides`: one piece point with x = -2^63 at a
position with x = -2^63, over the empty 20 x 10 board. -/
def wrapStart : game :=
  { newGame with
    matrix := emptyBoard, current := .detached ⟨[⟨-9223372036854775808, 0⟩]⟩,
    pos := ⟨-9223372036854775808, 0⟩ }

/-- A 20 x 10 board with row 0 full, in a state whose line count is the largest int. -/
def linesAtMax : game :=
  { newGame with
    matrix := fullRow :: List.replicate 19 (List.replicate 10 0),
    lines := 9223372036854775807 }

/-- A 20 x 10 board with row 0 full, in a state whose score is the largest int. -/
def scoreAtMax : game :=
  { newGame with
    matrix := fullRow :: List.replicate 19 (List.replicate 10 0),
    score := 9223372036854775807 }

/-- The state of the overflow example of `add`: the piece point (0, -1) at position
(0, -2^63) over the empty 20 x 10 board. -/
def addWrapStart : game :=
  { newGame with
    matrix := emptyBoard, current := .detached ⟨[⟨0, -1⟩]⟩,
    pos := ⟨0, -9223372036854775808⟩ }

/-- The points of a block moved by (dx, dy) in 64-bit wrap-around arithmetic. -/
def translate64 (dx dy : Int) (ps : List point) : List point :=
  ps.map fun p => ⟨add64 p.x dx, add64 p.y dy⟩

/-- Two points (2^62, 0): the sum of the x coordinates is 2^63, one more than the
largest int. -/
def wideBlock : block :=
  ⟨[⟨4611686018427387904, 0⟩, ⟨4611686018427387904, 0⟩]⟩

/-- Three points (2^62, 0): the sum of the x coordinates, 3 * 2^62, is a multiple of 3
and larger than every int. -/
def tripleBlock : block :=
  ⟨[⟨4611686018427387904, 0⟩, ⟨4611686018427387904, 0⟩, ⟨4611686018427387904, 0⟩]⟩

/-- The I shape with its first point at (0, -2^63), the least int. -/
def lowBlock : block :=
  ⟨[⟨0, -9223372036854775808⟩, ⟨0, -9223372036854775807⟩, ⟨0, -9223372036854775806⟩,
    ⟨0, -9223372036854775805⟩]⟩

/-- The state of the overflow example of `input`: position (-2^63, 0) and the single
piece point (-2^63 + 1, 0), whose cell is column 1 of the empty 20 x 10 board. -/
def leftEdge : game :=
  { newGame with
    matrix := emptyBoard, current := .detached ⟨[⟨-9223372036854775807, 0⟩]⟩,
    pos := ⟨-9223372036854775808, 0⟩ }

/-- The part of the play invariant that does not involve the counters: a 20 x 10 board
without a full row and a catalog of seven four-point blocks one of which is the active
block. -/
def game.shape (g : game) : Prop :=
  g.matrix.length = 20 ∧ rectangular g.matrix 10 ∧ (∀ row ∈ g.matrix, isFull row = false) ∧
    g.tetrominos.length = 7 ∧ (∀ b ∈ g.tetrominos, b.points.length = 4) ∧
    (∃ i, i < 7 ∧ g.current = .template i)

/-- The state g with line count l, level v and score s. -/
def game.withCounters (g : game) (l v s : Int) : game :=
  { g with lines := l, level := v, score := s }

/-- The play made of n rounds of `fillFourRows`. -/
def rounds : Nat → List Event
  | 0 => []
  | n + 1 => fillFourRows ++ rounds n

/-! ## Theorems -/

theorem wrap64_of_isInt64 (z : Int) (h : isInt64 z) : wrap64 z = z := by
  unfold isInt64 at h
  unfold wrap64
  omega

theorem isInt64_wrap64 (z : Int) : isInt64 (wrap64 z) := by
  unfold isInt64 wrap64
  omega

theorem wrap64_wrap64 (z : Int) : wrap64 (wrap64 z) = wrap64 z :=
  wrap64_of_isInt64 _ (isInt64_wrap64 z)

theorem add64_eq (a b : Int) (h : isInt64 (a + b)) : add64 a b = a + b :=
  wrap64_of_isInt64 _ h

theorem sub64_eq (a b : Int) (h : isInt64 (a - b)) : sub64 a b = a - b :=
  wrap64_of_isInt64 _ h

theorem add64_congr (a b c : Int) (h : wrap64 a = wrap64 b) : add64 a c = add64 b c := by
  unfold add64
  unfold wrap64 at h ⊢
  omega

theorem sub64_add64 (a : Int) : wrap64 (sub64 (add64 a 1) 1) = wrap64 a := by
  unfold sub64 add64 wrap64
  omega

theorem add64_sub64 (a : Int) : wrap64 (add64 (sub64 a 1) 1) = wrap64 a := by
  unfold sub64 add64 wrap64
  omega

theorem cellAt_inside (m : List (List Int)) (w : Nat) (hrect : rectangular m w) (y x : Int)
    (hy0 : 0 ≤ y) (hy : y < m.length) (hx0 : 0 ≤ x) (hx : x < w) :
    ∃ row c, m[y.toNat]? = some row ∧ row[x.toNat]? = some c ∧ cellAt m y x = some c := by
  have h1 : y.toNat < m.length := by omega
  have hrow : m[y.toNat]? = some (m[y.toNat]) := List.getElem?_eq_getElem h1
  have hlen : (m[y.toNat]).length = w := hrect _ (List.getElem_mem h1)
  have h2 : x.toNat < (m[y.toNat]).length := by omega
  refine ⟨m[y.toNat], (m[y.toNat])[x.toNat], hrow, List.getElem?_eq_getElem h2, ?_⟩
  unfold cellAt
  rw [if_neg (by omega), hrow]
  simp [List.getElem?_eq_getElem h2]

theorem collidesLoop_spec (m : List (List Int)) (w : Nat) (hrect : rectangular m w)
    (hrows : 0 < m.length) (pos : point) (ps : List point) :
    ∃ b, collidesLoop m pos ps = some b ∧
      (b = true ↔ ∃ p ∈ ps, add64 pos.x p.x < 0 ∨ add64 pos.x p.x ≥ w ∨ add64 pos.y p.y ≥ m.length ∨
        (add64 pos.y p.y ≥ 0 ∧ occupied m (add64 pos.y p.y) (add64 pos.x p.x) = true)) := by
  induction ps with
  | nil => exact ⟨false, rfl, by simp⟩
  | cons p ps ih =>
    obtain ⟨b, hb, hiff⟩ := ih
    obtain ⟨row0, rest, hm⟩ : ∃ row0 rest, m = row0 :: rest := by
      cases m with
      | nil => simp at hrows
      | cons a l => exact ⟨a, l, rfl⟩
    have hw : row0.length = w := hrect row0 (by simp [hm])
    have hhead : m.head? = some row0 := by simp [hm]
    unfold collidesLoop
    simp only [hhead]
    by_cases h1 : add64 pos.y p.y ≥ (m.length : Int)
    · exact ⟨true, by simp [h1], by simp; exact Or.inl (Or.inr (Or.inr (Or.inl h1)))⟩
    by_cases h2 : add64 pos.x p.x < 0
    · exact ⟨true, by simp [h1, h2], by simp; exact Or.inl (Or.inl h2)⟩
    by_cases h3 : add64 pos.x p.x ≥ (row0.length : Int)
    · refine ⟨true, by simp [h1, h2, h3], ?_⟩
      simp only [true_iff]
      exact ⟨p, by simp, Or.inr (Or.inl (by omega))⟩
    by_cases h4 : add64 pos.y p.y ≥ 0
    · obtain ⟨row, c, hr, hc, hcell⟩ := cellAt_inside m w hrect (add64 pos.y p.y) (add64 pos.x p.x)
        h4 (by omega) (by omega) (by omega)
      by_cases h5 : c ≠ 0
      · refine ⟨true, by simp [h1, h2, h3, h4, hr, hc, h5], ?_⟩
        simp only [true_iff]
        refine ⟨p, by simp, Or.inr (Or.inr (Or.inr ⟨h4, ?_⟩))⟩
        simp [occupied, hcell, h5]
      · refine ⟨b, by simp [h1, h2, h3, h4, hr, hc, h5, hb], ?_⟩
        rw [hiff]
        have hno : occupied m (add64 pos.y p.y) (add64 pos.x p.x) = false := by
          simp only [not_not] at h5
          simp [occupied, hcell, h5]
        constructor
        · rintro ⟨q, hq, hh⟩
          exact ⟨q, by simp [hq], hh⟩
        · rintro ⟨q, hq, hh⟩
          rcases List.mem_cons.mp hq with rfl | hq
          · rcases hh with hh | hh | hh | ⟨_, hh⟩
            · omega
            · omega
            · omega
            · rw [hno] at hh; cases hh
          · exact ⟨q, hq, hh⟩
    · refine ⟨b, by simp [h1, h2, h3, h4, hb], ?_⟩
      rw [hiff]
      constructor
      · rintro ⟨q, hq, hh⟩
        exact ⟨q, by simp [hq], hh⟩
      · rintro ⟨q, hq, hh⟩
        rcases List.mem_cons.mp hq with rfl | hq
        · rcases hh with hh | hh | hh | ⟨hh, _⟩
          · omega
          · omega
          · omega
          · omega
        · exact ⟨q, hq, hh⟩

theorem collidesLoop_congr (m : List (List Int)) (pos q : point) (hx : wrap64 pos.x = wrap64 q.x)
    (hy : wrap64 pos.y = wrap64 q.y) (ps : List point) :
    collidesLoop m pos ps = collidesLoop m q ps := by
  induction ps with
  | nil => rfl
  | cons p ps ih =>
    unfold collidesLoop
    rw [add64_congr _ _ p.x hx, add64_congr _ _ p.y hy, ih]

/-- C1, counterexample: a piece point with x = -2^63 at a position with x = -2^63 over the
empty 20 x 10 board has the mathematical sum -2^64 < 0, yet collides returns false: the
sum of the code is 0 after wrap-around, a column of the board. -/
theorem collides_wraps_around :
    rectangular wrapStart.matrix 10 ∧ 0 < wrapStart.matrix.length ∧
      wrapStart.collides = some false ∧
      ∃ p ∈ wrapStart.cur.points, wrapStart.pos.x + p.x < 0 := by
  decide

/-- C1, amended: on a rectangular board with at least one row, collides returns true
exactly when some piece point has an absolute cell (x, y), the sums pos.x + p.x and
pos.y + p.y of the code taken in 64-bit wrap-around arithmetic, with x < 0, x >= width,
y >= height, or y >= 0 and an occupied board cell; an x out of range or a y >= height
makes it true whatever the board holds, and cells with y < 0 and x in range give false.
For a piece none of whose sums leaves the int range the cells are the mathematical
sums. -/
theorem collides_iff (g : game) (w : Nat) (hrect : rectangular g.matrix w)
    (hrows : 0 < g.matrix.length) :
    (∃ b, g.collides = some b ∧
      (b = true ↔ ∃ p ∈ g.cur.points,
        add64 g.pos.x p.x < 0 ∨ add64 g.pos.x p.x ≥ w ∨ add64 g.pos.y p.y ≥ g.matrix.length ∨
          (add64 g.pos.y p.y ≥ 0 ∧
            occupied g.matrix (add64 g.pos.y p.y) (add64 g.pos.x p.x) = true))) ∧
    (∀ p ∈ g.cur.points,
      (add64 g.pos.x p.x < 0 ∨ add64 g.pos.x p.x ≥ w ∨ add64 g.pos.y p.y ≥ g.matrix.length) →
        g.collides = some true) ∧
    ((∀ p ∈ g.cur.points,
        add64 g.pos.y p.y < 0 ∧ 0 ≤ add64 g.pos.x p.x ∧ add64 g.pos.x p.x < w) →
      g.collides = some false) ∧
    ((∀ p ∈ g.cur.points, isInt64 (g.pos.x + p.x) ∧ isInt64 (g.pos.y + p.y)) →
      ∃ b, g.collides = some b ∧
        (b = true ↔ ∃ p ∈ g.cur.points,
          g.pos.x + p.x < 0 ∨ g.pos.x + p.x ≥ w ∨ g.pos.y + p.y ≥ g.matrix.length ∨
            (g.pos.y + p.y ≥ 0 ∧
              occupied g.matrix (g.pos.y + p.y) (g.pos.x + p.x) = true))) := by
  obtain ⟨b, hb, hiff⟩ := collidesLoop_spec g.matrix w hrect hrows g.pos g.cur.points
  refine ⟨⟨b, hb, hiff⟩, ?_, ?_, ?_⟩
  · intro p hp hout
    have : b = true := hiff.mpr ⟨p, hp, by tauto⟩
    rw [← this]; exact hb
  · intro hall
    have : b = false := by
      cases hbv : b with
      | false => rfl
      | true =>
        obtain ⟨p, hp, hh⟩ := hiff.mp hbv
        have := hall p hp
        omega
    rw [← this]; exact hb
  · intro hin
    refine ⟨b, hb, ?_⟩
    rw [hiff]
    constructor
    · rintro ⟨p, hp, hh⟩
      rw [add64_eq _ _ (hin p hp).1, add64_eq _ _ (hin p hp).2] at hh
      exact ⟨p, hp, hh⟩
    · rintro ⟨p, hp, hh⟩
      refine ⟨p, hp, ?_⟩
      rw [add64_eq _ _ (hin p hp).1, add64_eq _ _ (hin p hp).2]
      exact hh

theorem collides_iff_witness :
    rectangular dropStart.matrix 10 ∧ 0 < dropStart.matrix.length ∧
      ∃ b, dropStart.collides = some b ∧
        (b = true ↔ ∃ p ∈ dropStart.cur.points,
          add64 dropStart.pos.x p.x < 0 ∨ add64 dropStart.pos.x p.x ≥ (10 : Nat) ∨
            add64 dropStart.pos.y p.y ≥ dropStart.matrix.length ∨
            (add64 dropStart.pos.y p.y ≥ 0 ∧
              occupied dropStart.matrix (add64 dropStart.pos.y p.y)
                (add64 dropStart.pos.x p.x) = true)) :=
  ⟨by decide, by decide, (collides_iff dropStart 10 (by decide) (by decide)).1⟩

theorem rowFull_eq_isFull (row : List Int) : rowFull row = isFull row := by
  induction row with
  | nil => rfl
  | cons c cs ih =>
    unfold rowFull isFull
    by_cases hc : c = 0
    · simp [hc]
    · simp only [hc, if_false, List.all_cons]
      rw [ih]
      simp [isFull, hc]

theorem removeRow_eq (m : List (List Int)) (y : Nat) (hy : y < m.length) :
    removeRow m y =
      List.replicate (m.headD []).length 0 :: (m.take y ++ m.drop (y + 1)) := by
  cases m with
  | nil => simp at hy
  | cons r rest =>
    simp only [List.length_cons] at hy
    have h1 : List.take rest.length (List.take y (r :: rest)) = List.take y (r :: rest) := by
      apply List.take_of_length_le
      simp
      omega
    have h2 : (List.take y (r :: rest)).length = y := by
      simp
      omega
    simp [removeRow, goCopy, h1, h2]

theorem clearLoop_inv (w : Nat) (post : List (List Int)) :
    ∀ (c : Nat) (pre : List (List Int)) (cl : Nat),
      rectangular (pre ++ post) w →
      clearLoop post.length (c + pre.length)
          (List.replicate c (List.replicate w 0) ++ pre ++ post) cl =
        (List.replicate (c + (post.filter isFull).length) (List.replicate w 0) ++ pre ++
            post.filter (fun r => !isFull r),
          cl + (post.filter isFull).length) := by
  induction post with
  | nil => intro c pre cl _; simp [clearLoop]
  | cons r post ih =>
    intro c pre cl hrect
    have hget : (List.replicate c (List.replicate w 0) ++ pre ++ r :: post).getD
        (c + pre.length) [] = r := by
      rw [List.getD_eq_getElem?_getD, List.getElem?_append_right (by simp)]
      simp
    simp only [List.length_cons, clearLoop, hget, rowFull_eq_isFull]
    by_cases hf : isFull r = true
    · simp only [hf, if_true]
      have hlen : c + pre.length <
          (List.replicate c (List.replicate w 0) ++ pre ++ r :: post).length := by
        simp
      rw [removeRow_eq _ _ hlen]
      have hhead : ((List.replicate c (List.replicate w 0) ++ pre ++ r :: post).headD []).length
          = w := by
        cases c with
        | succ c => simp [List.replicate_succ]
        | zero =>
          cases pre with
          | nil => simpa using hrect r (by simp)
          | cons a pre => simpa using hrect a (by simp)
      have htake : List.take (c + pre.length)
          (List.replicate c (List.replicate w 0) ++ pre ++ r :: post) =
          List.replicate c (List.replicate w 0) ++ pre := by
        rw [List.take_append_eq_append_take]
        simp
      have hdrop : List.drop (c + pre.length + 1)
          (List.replicate c (List.replicate w 0) ++ pre ++ r :: post) = post := by
        rw [List.drop_append_eq_append_drop]
        simp
      rw [hhead, htake, hdrop]
      have hrect2 : rectangular (pre ++ post) w := by
        intro row hrow
        apply hrect
        simp only [List.mem_append, List.mem_cons] at hrow ⊢
        tauto
      have := ih (c + 1) pre (cl + 1) hrect2
      rw [List.replicate_succ] at this
      have e1 : c + pre.length + 1 = c + 1 + pre.length := by omega
      rw [e1]
      simp only [List.cons_append, List.append_assoc] at this ⊢
      rw [this]
      simp [hf, List.filter_cons]
      omega
    · simp only [hf]
      have hrect2 : rectangular ((pre ++ [r]) ++ post) w := by
        intro row hrow
        apply hrect
        simp only [List.mem_append, List.mem_cons, List.mem_singleton] at hrow ⊢
        tauto
      have := ih c (pre ++ [r]) cl hrect2
      simp only [List.length_append, List.length_singleton, List.append_assoc,
        List.singleton_append] at this
      simp only [Bool.false_eq_true, if_false, List.append_assoc]
      rw [← Nat.add_assoc] at this
      rw [this]
      simp [hf, List.filter_cons]

theorem clearLoop_run (w : Nat) (m : List (List Int)) (hrect : rectangular m w) :
    clearLoop m.length 0 m 0 =
      (List.replicate (m.filter isFull).length (List.replicate w 0) ++
        m.filter (fun r => !isFull r), (m.filter isFull).length) := by
  have := clearLoop_inv w m 0 [] 0 (by simpa using hrect)
  simpa using this

theorem clearLoop_count_le (n : Nat) :
    ∀ (y : Nat) (m : List (List Int)) (cl : Nat), (clearLoop n y m cl).2 ≤ cl + n := by
  induction n with
  | zero => intro y m cl; simp [clearLoop]
  | succ n ih =>
    intro y m cl
    unfold clearLoop
    split
    · have := ih (y + 1) (removeRow m y) (cl + 1); omega
    · have := ih (y + 1) m cl; omega

theorem clearLoop_no_full (m : List (List Int)) (hno : ∀ row ∈ m, isFull row = false) (n : Nat) :
    ∀ (y cl : Nat), y + n ≤ m.length → clearLoop n y m cl = (m, cl) := by
  induction n with
  | zero => intro y cl _; rfl
  | succ n ih =>
    intro y cl hy
    have hlt : y < m.length := by omega
    have hrow : rowFull (m.getD y []) = false := by
      rw [rowFull_eq_isFull, List.getD_eq_getElem?_getD, List.getElem?_eq_getElem hlt]
      exact hno _ (List.getElem_mem hlt)
    unfold clearLoop
    rw [hrow]
    simpa using ih (y + 1) cl (by omega)

theorem clear_frame (g : game) :
    g.clear.over = g.over ∧ g.clear.level = g.level ∧ g.clear.tetrominos = g.tetrominos ∧
      g.clear.current = g.current ∧ g.clear.pos = g.pos ∧
      g.clear.matrix = (clearLoop g.matrix.length 0 g.matrix 0).1 ∧
      g.clear.lines =
        (if (clearLoop g.matrix.length 0 g.matrix 0).2 > 0 then
          wrap64 (g.lines + ((clearLoop g.matrix.length 0 g.matrix 0).2 : Int)) else g.lines) ∧
      g.clear.score =
        (if (clearLoop g.matrix.length 0 g.matrix 0).2 > 0 then
          wrap64 (g.score + shl64 100 (clearLoop g.matrix.length 0 g.matrix 0).2)
        else g.score) := by
  unfold game.clear
  simp only
  split
  · exact ⟨rfl, rfl, rfl, rfl, rfl, rfl, rfl, rfl⟩
  · exact ⟨rfl, rfl, rfl, rfl, rfl, rfl, rfl, rfl⟩

theorem clear_matrix_lines (g : game) (w : Nat) (hrect : rectangular g.matrix w) :
    g.clear.matrix =
        List.replicate (g.matrix.filter isFull).length (List.replicate w 0) ++
          g.matrix.filter (fun row => !isFull row) ∧
      g.clear.lines =
        (if 0 < (g.matrix.filter isFull).length then
          wrap64 (g.lines + ((g.matrix.filter isFull).length : Int)) else g.lines) ∧
      g.clear.score =
        (if 0 < (g.matrix.filter isFull).length then
          wrap64 (g.score + shl64 100 (g.matrix.filter isFull).length) else g.score) := by
  have hrun := clearLoop_run w g.matrix hrect
  obtain ⟨_, _, _, _, _, f6, f7, f8⟩ := clear_frame g
  rw [hrun] at f6 f7 f8
  exact ⟨f6, f7, f8⟩

theorem filter_one_full (m : List (List Int)) :
    ∀ (r : Nat) (row : List Int), m[r]? = some row → isFull row = true →
      (∀ (i : Nat) (row1 : List Int), m[i]? = some row1 → i ≠ r → isFull row1 = false) →
      m.filter isFull = [row] ∧ m.filter (fun row => !isFull row) = m.eraseIdx r := by
  induction m with
  | nil => intro r row h; simp at h
  | cons a m ih =>
    intro r row h hf ho
    cases r with
    | zero =>
      simp only [List.getElem?_cons_zero, Option.some.injEq] at h
      subst h
      have hrest : ∀ row1 ∈ m, isFull row1 = false := by
        intro row1 hmem
        obtain ⟨i, hi, rfl⟩ := List.getElem_of_mem hmem
        exact ho (i + 1) _ (by simp [List.getElem?_eq_getElem hi]) (by omega)
      have e1 : m.filter isFull = [] := by
        rw [List.filter_eq_nil_iff]
        intro x hx; simp [hrest x hx]
      have e2 : m.filter (fun row => !isFull row) = m := by
        rw [List.filter_eq_self]
        intro x hx; simp [hrest x hx]
      simp [List.filter_cons, hf, e1, e2]
    | succ r =>
      simp only [List.getElem?_cons_succ] at h
      have ha : isFull a = false := ho 0 a (by simp) (by omega)
      have := ih r row h hf (fun i row1 hi hne =>
        ho (i + 1) row1 (by simpa using hi) (by omega))
      simp [List.filter_cons, ha, this.1, this.2]

/-- C2, counterexample: with line count 2^63 - 1 and exactly one full row, clear leaves
the line count -2^63, not the count plus 1. -/
theorem clear_lines_wrap :
    rectangular linesAtMax.matrix 10 ∧ (linesAtMax.matrix.filter isFull).length = 1 ∧
      linesAtMax.clear.lines = -9223372036854775808 ∧
      linesAtMax.clear.lines ≠ linesAtMax.lines + 1 := by
  decide

/-- C2, amended: on a rectangular board, clear leaves k empty rows followed by the
non-full rows of the original board in their order, k being the number of full rows,
and adds k to the line count in 64-bit wrap-around arithmetic, which is the exact sum
whenever that sum is an int; with a single full row, at index r, the result is the
original board with row r removed and an empty row put at index 0, and 1 is added to
the count in the same arithmetic. -/
theorem clear_compacts (g : game) (w : Nat) (hrect : rectangular g.matrix w) :
    g.clear.matrix =
        List.replicate (g.matrix.filter isFull).length (List.replicate w 0) ++
          g.matrix.filter (fun row => !isFull row) ∧
      g.clear.lines =
        (if 0 < (g.matrix.filter isFull).length then
          wrap64 (g.lines + ((g.matrix.filter isFull).length : Int)) else g.lines) ∧
      (isInt64 (g.lines + ((g.matrix.filter isFull).length : Int)) →
        g.clear.lines = g.lines + ((g.matrix.filter isFull).length : Int)) ∧
      (clearLoop g.matrix.length 0 g.matrix 0).2 = (g.matrix.filter isFull).length ∧
      ∀ (r : Nat) (row : List Int), g.matrix[r]? = some row → isFull row = true →
        (∀ (i : Nat) (row1 : List Int), g.matrix[i]? = some row1 → i ≠ r →
          isFull row1 = false) →
        g.clear.matrix = List.replicate w 0 :: g.matrix.eraseIdx r ∧
          g.clear.lines = wrap64 (g.lines + 1) ∧
          (isInt64 (g.lines + 1) → g.clear.lines = g.lines + 1) := by
  have hrun := clearLoop_run w g.matrix hrect
  obtain ⟨hm, hl, _⟩ := clear_matrix_lines g w hrect
  have hexact : isInt64 (g.lines + ((g.matrix.filter isFull).length : Int)) →
      g.clear.lines = g.lines + ((g.matrix.filter isFull).length : Int) := by
    intro hin
    rw [hl]
    split
    · exact wrap64_of_isInt64 _ hin
    · rename_i hk
      have : (g.matrix.filter isFull).length = 0 := by omega
      simp [this]
  refine ⟨hm, hl, hexact, by rw [hrun], ?_⟩
  intro r row hr hfull hothers
  obtain ⟨e1, e2⟩ := filter_one_full g.matrix r row hr hfull hothers
  rw [e1] at hexact
  rw [hm, hl, e1, e2]
  refine ⟨by simp, by simp, ?_⟩
  intro hin
  simp [wrap64_of_isInt64 _ hin]

theorem clear_compacts_witness :
    rectangular nineteenFull.matrix 10 ∧
      nineteenFull.clear.matrix =
        List.replicate (nineteenFull.matrix.filter isFull).length (List.replicate 10 0) ++
          nineteenFull.matrix.filter (fun row => !isFull row) :=
  ⟨by decide, (clear_compacts nineteenFull 10 (by decide)).1⟩

theorem clear_eq_self (g : game) (hno : ∀ row ∈ g.matrix, isFull row = false) :
    g.clear = g := by
  have hrun := clearLoop_no_full g.matrix hno g.matrix.length 0 0 (by omega)
  unfold game.clear
  simp [hrun]

/-- C3: on a board without a full row, clear counts zero cleared rows and returns the
state it was given: board, score and line count (and every other field) are unchanged. -/
theorem clear_no_full_row (g : game) (hno : ∀ row ∈ g.matrix, isFull row = false) :
    (clearLoop g.matrix.length 0 g.matrix 0).2 = 0 ∧ g.clear = g ∧
      g.clear.matrix = g.matrix ∧ g.clear.score = g.score ∧ g.clear.lines = g.lines := by
  have hrun := clearLoop_no_full g.matrix hno g.matrix.length 0 0 (by omega)
  have hg : g.clear = g := clear_eq_self g hno
  exact ⟨by rw [hrun], hg, by rw [hg], by rw [hg], by rw [hg]⟩

theorem clear_no_full_row_witness :
    (∀ row ∈ dropStart.matrix, isFull row = false) ∧ dropStart.clear = dropStart :=
  ⟨by decide, (clear_no_full_row dropStart (by decide)).2.1⟩

theorem shl64_small (k : Nat) (hk : k ≤ 20) : shl64 100 k = 100 * 2 ^ k := by
  interval_cases k <;> decide

/-- C7, counterexample: with score 2^63 - 1 and one full row on a 20-row board, clear
leaves the score -9223372036854775609, not the score plus 200. -/
theorem clear_score_wrap :
    scoreAtMax.matrix.length = 20 ∧
      (clearLoop scoreAtMax.matrix.length 0 scoreAtMax.matrix 0).2 = 1 ∧
      scoreAtMax.clear.score = -9223372036854775609 ∧
      scoreAtMax.clear.score ≠ scoreAtMax.score + 100 * 2 ^ 1 := by
  decide

/-- C7, amended: on a board of 20 rows, a call of clear that removes k >= 1 rows adds
100 * 2^k to the score in 64-bit wrap-around arithmetic, which is the exact sum whenever
that sum is an int, so from score 0 it gives 200, 400, 800, 1600 for k = 1, 2, 3, 4;
a call that removes no row leaves the score as it was; on a rectangular board k is the
number of full rows, and the board with rows 1 to 19 full and row 0 empty gives k = 19
and 52428800 from 0. -/
theorem clear_score (g : game) (hrows : g.matrix.length = 20) :
    (clearLoop g.matrix.length 0 g.matrix 0).2 ≤ 20 ∧
      (1 ≤ (clearLoop g.matrix.length 0 g.matrix 0).2 →
        g.clear.score =
          wrap64 (g.score + 100 * 2 ^ (clearLoop g.matrix.length 0 g.matrix 0).2)) ∧
      (1 ≤ (clearLoop g.matrix.length 0 g.matrix 0).2 →
        isInt64 (g.score + 100 * 2 ^ (clearLoop g.matrix.length 0 g.matrix 0).2) →
        g.clear.score = g.score + 100 * 2 ^ (clearLoop g.matrix.length 0 g.matrix 0).2) ∧
      ((clearLoop g.matrix.length 0 g.matrix 0).2 = 0 → g.clear.score = g.score) ∧
      (g.score = 0 →
        ((clearLoop g.matrix.length 0 g.matrix 0).2 = 1 → g.clear.score = 200) ∧
        ((clearLoop g.matrix.length 0 g.matrix 0).2 = 2 → g.clear.score = 400) ∧
        ((clearLoop g.matrix.length 0 g.matrix 0).2 = 3 → g.clear.score = 800) ∧
        ((clearLoop g.matrix.length 0 g.matrix 0).2 = 4 → g.clear.score = 1600)) ∧
      (∀ w, rectangular g.matrix w →
        (clearLoop g.matrix.length 0 g.matrix 0).2 = (g.matrix.filter isFull).length) ∧
      (clearLoop nineteenFull.matrix.length 0 nineteenFull.matrix 0).2 = 19 ∧
      nineteenFull.score = 0 ∧ nineteenFull.clear.score = 52428800 := by
  have hle : (clearLoop g.matrix.length 0 g.matrix 0).2 ≤ 20 := by
    have := clearLoop_count_le g.matrix.length 0 g.matrix 0
    omega
  obtain ⟨_, _, _, _, _, _, _, f8⟩ := clear_frame g
  have hpos : 1 ≤ (clearLoop g.matrix.length 0 g.matrix 0).2 →
      g.clear.score =
        wrap64 (g.score + 100 * 2 ^ (clearLoop g.matrix.length 0 g.matrix 0).2) := by
    intro hk
    rw [f8, if_pos (by omega), shl64_small _ hle]
  have hzero : (clearLoop g.matrix.length 0 g.matrix 0).2 = 0 → g.clear.score = g.score := by
    intro hk
    rw [f8, if_neg (by omega)]
  refine ⟨hle, hpos, ?_, hzero, ?_, ?_, by decide, by decide, by decide⟩
  · intro hk hin
    rw [hpos hk, wrap64_of_isInt64 _ hin]
  · intro h0
    refine ⟨?_, ?_, ?_, ?_⟩ <;>
    · intro hk
      have := hpos (by omega)
      rw [hk, h0] at this
      rw [this]
      decide
  · intro w hrect
    rw [clearLoop_run w g.matrix hrect]

theorem clear_score_witness :
    nineteenFull.matrix.length = 20 ∧
      (clearLoop nineteenFull.matrix.length 0 nineteenFull.matrix 0).2 ≤ 20 :=
  ⟨by decide, (clear_score nineteenFull (by decide)).1⟩

/-- After clear, a rectangular board of positive width has its dimensions and no full row. -/
theorem clear_board (g : game) (w : Nat) (hw : 0 < w) (hrect : rectangular g.matrix w) :
    g.clear.matrix.length = g.matrix.length ∧ rectangular g.clear.matrix w ∧
      (∀ row ∈ g.clear.matrix, isFull row = false) := by
  obtain ⟨hm, _⟩ := clear_matrix_lines g w hrect
  have hsplit : (g.matrix.filter isFull).length +
      (g.matrix.filter (fun row => !isFull row)).length = g.matrix.length := by
    have h1 := List.countP_eq_length_filter isFull g.matrix
    have h2 := List.countP_eq_length_filter (fun row => !isFull row) g.matrix
    have h3 := List.length_eq_countP_add_countP isFull g.matrix
    have h4 : List.countP (fun a => decide ¬isFull a = true) g.matrix =
        List.countP (fun row => !isFull row) g.matrix := by
      congr 1
      funext a
      cases isFull a <;> rfl
    omega
  refine ⟨?_, ?_, ?_⟩
  · rw [hm]; simp; omega
  · rw [hm]
    intro row hrow
    rcases List.mem_append.mp hrow with h | h
    · rw [(List.mem_replicate.mp h).2]; simp
    · exact hrect row (List.mem_filter.mp h).1
  · rw [hm]
    intro row hrow
    rcases List.mem_append.mp hrow with h | h
    · rw [(List.mem_replicate.mp h).2]
      cases w with
      | zero => omega
      | succ w => simp [isFull, List.replicate_succ]
    · simpa using (List.mem_filter.mp h).2

theorem filter_set_le (p : List Int → Bool) (m : List (List Int)) (i : Nat) (row : List Int) :
    ((m.set i row).filter p).length ≤ (m.filter p).length + 1 := by
  induction m generalizing i with
  | nil => simp
  | cons a m ih =>
    cases i with
    | zero =>
      simp only [List.set_cons_zero, List.filter_cons]
      split <;> split <;> (try simp only [List.length_cons]) <;> omega
    | succ i =>
      simp only [List.set_cons_succ, List.filter_cons]
      have := ih i
      split <;> (try simp only [List.length_cons]) <;> omega

theorem filter_isFull_nil (m : List (List Int)) (hno : ∀ row ∈ m, isFull row = false) :
    m.filter isFull = [] := by
  rw [List.filter_eq_nil_iff]
  intro row hrow
  simp [hno row hrow]

theorem cellAt_eq (m : List (List Int)) (y x : Int) (hy : 0 ≤ y) (hx : 0 ≤ x) :
    cellAt m y x = (m[y.toNat]?).bind fun row => row[x.toNat]? := by
  unfold cellAt
  rw [if_neg (by omega)]

theorem setCell_spec (m : List (List Int)) (y x : Int) (hy : 0 ≤ y)
    (hin : (cellAt m y x).isSome = true) :
    ∃ m1, setCell m y x = some m1 ∧ m1.map List.length = m.map List.length ∧
      ∀ y1 x1 : Int, cellAt m1 y1 x1 = if y1 = y ∧ x1 = x then some 1 else cellAt m y1 x1 := by
  have hx : 0 ≤ x := by
    by_contra hneg
    unfold cellAt at hin
    rw [if_pos (by omega)] at hin
    simp at hin
  rw [cellAt_eq m y x hy hx] at hin
  cases hrow : m[y.toNat]? with
  | none => rw [hrow] at hin; simp at hin
  | some row =>
    rw [hrow] at hin
    simp only [Option.some_bind] at hin
    have hxlt : x.toNat < row.length := by
      by_contra hge
      rw [List.getElem?_eq_none (by omega)] at hin
      simp at hin
    have hylt : y.toNat < m.length := by
      by_contra hge
      rw [List.getElem?_eq_none (by omega)] at hrow
      simp at hrow
    refine ⟨m.set y.toNat (row.set x.toNat 1), ?_, ?_, ?_⟩
    · unfold setCell
      simp only [hrow]
      rw [if_neg (by omega), if_pos hxlt]
    · apply List.ext_getElem?
      intro i
      simp only [List.getElem?_map, List.getElem?_set]
      by_cases hi : y.toNat = i
      · subst hi
        simp [hylt, hrow]
      · simp [hi]
    · intro y1 x1
      by_cases hneg : y1 < 0 ∨ x1 < 0
      · have e1 : cellAt (m.set y.toNat (row.set x.toNat 1)) y1 x1 = none := by
          unfold cellAt; rw [if_pos hneg]
        have e2 : cellAt m y1 x1 = none := by
          unfold cellAt; rw [if_pos hneg]
        rw [e1, e2, if_neg (by omega)]
      · have hy1 : 0 ≤ y1 := by omega
        have hx1 : 0 ≤ x1 := by omega
        rw [cellAt_eq _ y1 x1 hy1 hx1, cellAt_eq _ y1 x1 hy1 hx1]
        by_cases hyy : y1 = y
        · subst hyy
          simp only [List.getElem?_set, if_true, hylt, Option.some_bind, hrow, true_and]
          by_cases hxx : x1 = x
          · subst hxx
            simp [hxlt]
          · have : x.toNat ≠ x1.toNat := by omega
            simp [hxx, this]
        · have : y.toNat ≠ y1.toNat := by omega
          simp [List.getElem?_set, this, hyy]

theorem addLoop_spec (pos : point) (ps : List point) :
    ∀ m : List (List Int),
      (∀ p ∈ ps, 0 ≤ add64 pos.y p.y → (cellAt m (add64 pos.y p.y) (add64 pos.x p.x)).isSome = true) →
      ∃ m1, addLoop pos ps m = some m1 ∧ m1.map List.length = m.map List.length ∧
        (∀ y x : Int, (∃ p ∈ ps, add64 pos.x p.x = x ∧ add64 pos.y p.y = y ∧ 0 ≤ y) →
          cellAt m1 y x = some 1) ∧
        (∀ y x : Int, (¬ ∃ p ∈ ps, add64 pos.x p.x = x ∧ add64 pos.y p.y = y ∧ 0 ≤ y) →
          cellAt m1 y x = cellAt m y x) := by
  induction ps with
  | nil => intro m _; exact ⟨m, rfl, rfl, by simp, by simp⟩
  | cons p ps ih =>
    intro m hin
    unfold addLoop
    by_cases hy : add64 pos.y p.y ≥ 0
    · obtain ⟨m1, hset, hlen1, hcell1⟩ :=
        setCell_spec m (add64 pos.y p.y) (add64 pos.x p.x) hy (hin p (by simp) hy)
      have hin1 : ∀ q ∈ ps, 0 ≤ add64 pos.y q.y →
          (cellAt m1 (add64 pos.y q.y) (add64 pos.x q.x)).isSome = true := by
        intro q hq hqy
        rw [hcell1]
        split
        · rfl
        · exact hin q (by simp [hq]) hqy
      obtain ⟨m2, hrun, hlen2, hset2, hkeep2⟩ := ih m1 hin1
      refine ⟨m2, by simp [hy, hset, hrun], hlen2.trans hlen1, ?_, ?_⟩
      · rintro y x ⟨q, hq, hqx, hqy, hy0⟩
        by_cases hex : ∃ p ∈ ps, add64 pos.x p.x = x ∧ add64 pos.y p.y = y ∧ 0 ≤ y
        · exact hset2 y x hex
        · rw [hkeep2 y x hex, hcell1]
          rcases List.mem_cons.mp hq with rfl | hq
          · rw [if_pos ⟨hqy.symm, hqx.symm⟩]
          · exact absurd ⟨q, hq, hqx, hqy, hy0⟩ hex
      · intro y x hno
        have hno2 : ¬ ∃ p ∈ ps, add64 pos.x p.x = x ∧ add64 pos.y p.y = y ∧ 0 ≤ y := by
          rintro ⟨q, hq, hh⟩
          exact hno ⟨q, by simp [hq], hh⟩
        rw [hkeep2 y x hno2, hcell1, if_neg]
        rintro ⟨rfl, rfl⟩
        exact hno ⟨p, by simp, rfl, rfl, hy⟩
    · obtain ⟨m2, hrun, hlen2, hset2, hkeep2⟩ := ih m (fun q hq => hin q (by simp [hq]))
      refine ⟨m2, by simp [hy, hrun], hlen2, ?_, ?_⟩
      · rintro y x ⟨q, hq, hqx, hqy, hy0⟩
        rcases List.mem_cons.mp hq with rfl | hq
        · omega
        · exact hset2 y x ⟨q, hq, hqx, hqy, hy0⟩
      · intro y x hno
        apply hkeep2
        rintro ⟨q, hq, hh⟩
        exact hno ⟨q, by simp [hq], hh⟩

theorem setCell_some (m m1 : List (List Int)) (y x : Int) (h : setCell m y x = some m1) :
    m1.map List.length = m.map List.length ∧
      (m1.filter isFull).length ≤ (m.filter isFull).length + 1 := by
  unfold setCell at h
  split at h
  · cases h
  · rename_i row hrow
    split at h
    · cases h
    · split at h
      · simp only [Option.some.injEq] at h
        subst h
        refine ⟨?_, filter_set_le isFull m _ _⟩
        apply List.ext_getElem?
        intro i
        simp only [List.getElem?_map, List.getElem?_set]
        by_cases hi : y.toNat = i
        · subst hi
          have hylt : y.toNat < m.length := by
            by_contra hge
            rw [List.getElem?_eq_none (by omega)] at hrow
            cases hrow
          simp [hylt, hrow]
        · simp [hi]
      · cases h

theorem addLoop_some (pos : point) (ps : List point) :
    ∀ m m1 : List (List Int), addLoop pos ps m = some m1 →
      m1.map List.length = m.map List.length ∧
        (m1.filter isFull).length ≤ (m.filter isFull).length + ps.length := by
  induction ps with
  | nil =>
    intro m m1 h
    simp only [addLoop, Option.some.injEq] at h
    subst h
    simp
  | cons p ps ih =>
    intro m m1 h
    unfold addLoop at h
    simp only at h
    split at h
    · split at h
      · cases h
      · rename_i m2 hset
        obtain ⟨h1, h2⟩ := setCell_some m m2 _ _ hset
        obtain ⟨h3, h4⟩ := ih m2 m1 h
        refine ⟨h3.trans h1, ?_⟩
        simp only [List.length_cons]
        omega
    · obtain ⟨h3, h4⟩ := ih m m1 h
      refine ⟨h3, ?_⟩
      simp only [List.length_cons]
      omega

theorem rectangular_of_lengths (m m1 : List (List Int)) (w : Nat)
    (h : m1.map List.length = m.map List.length) (hrect : rectangular m w) :
    rectangular m1 w ∧ m1.length = m.length := by
  have hlen : m1.length = m.length := by
    have := congrArg List.length h
    simpa using this
  refine ⟨?_, hlen⟩
  intro row hrow
  obtain ⟨i, hi, rfl⟩ := List.getElem_of_mem hrow
  have h1 : (m1.map List.length)[i]? = (m.map List.length)[i]? := by rw [h]
  have hi2 : i < m.length := by omega
  simp only [List.getElem?_map, List.getElem?_eq_getElem hi, List.getElem?_eq_getElem hi2,
    Option.map_some', Option.some.injEq] at h1
  rw [h1]
  exact hrect _ (List.getElem_mem hi2)

theorem add_tetrominos (g g1 : game) (h : g.add = some g1) :
    g1.tetrominos = g.tetrominos ∧ g1.lines = g.lines ∧ g1.level = g.level ∧
      g1.score = g.score ∧ g1.over = g.over ∧ g1.current = g.current ∧ g1.pos = g.pos := by
  unfold game.add at h
  simp only [Option.map_eq_some'] at h
  obtain ⟨m, _, rfl⟩ := h
  simp

theorem addLoop_congr (pos q : point) (hx : wrap64 pos.x = wrap64 q.x)
    (hy : wrap64 pos.y = wrap64 q.y) (ps : List point) :
    ∀ m : List (List Int), addLoop pos ps m = addLoop q ps m := by
  induction ps with
  | nil => intro m; rfl
  | cons p ps ih =>
    intro m
    unfold addLoop
    rw [add64_congr _ _ p.x hx, add64_congr _ _ p.y hy]
    simp only [ih]

/-- C4, counterexample: the piece point (0, -1) at position (0, -2^63) has the
mathematical row -2^63 - 1 < 0, so every piece cell with y >= 0 lies inside the board,
yet add panics: the row of the code is 2^63 - 1 after wrap-around. -/
theorem add_wraps_around :
    (∀ p ∈ addWrapStart.cur.points, 0 ≤ addWrapStart.pos.y + p.y →
      (cellAt addWrapStart.matrix (addWrapStart.pos.y + p.y)
        (addWrapStart.pos.x + p.x)).isSome = true) ∧
      addWrapStart.add = none := by
  decide

/-- C4, amended: with the absolute cells of the piece taken as the code computes them
(sums in 64-bit wrap-around arithmetic), when every piece cell with y >= 0 lies inside
the board, add succeeds, changes nothing but the board and keeps the length of every
row; afterwards a cell is occupied exactly when it was occupied before or is an
absolute cell of the piece with y >= 0: piece cells with y >= 0 hold 1, and every other
cell holds what it held. For a piece none of whose sums leaves the int range the cells
are the mathematical sums. -/
theorem add_spec (g : game)
    (hin : ∀ p ∈ g.cur.points, 0 ≤ add64 g.pos.y p.y →
      (cellAt g.matrix (add64 g.pos.y p.y) (add64 g.pos.x p.x)).isSome = true) :
    ∃ g1, g.add = some g1 ∧ g1 = { g with matrix := g1.matrix } ∧
      g1.matrix.map List.length = g.matrix.map List.length ∧
      (∀ y x : Int, occupied g1.matrix y x = true ↔
        (occupied g.matrix y x = true ∨
          ∃ p ∈ g.cur.points, add64 g.pos.x p.x = x ∧ add64 g.pos.y p.y = y ∧ 0 ≤ y)) ∧
      (∀ y x : Int, occupied g.matrix y x = true → occupied g1.matrix y x = true) ∧
      (∀ p ∈ g.cur.points, 0 ≤ add64 g.pos.y p.y →
        cellAt g1.matrix (add64 g.pos.y p.y) (add64 g.pos.x p.x) = some 1) ∧
      (∀ y x : Int,
        (¬ ∃ p ∈ g.cur.points, add64 g.pos.x p.x = x ∧ add64 g.pos.y p.y = y ∧ 0 ≤ y) →
        cellAt g1.matrix y x = cellAt g.matrix y x) ∧
      ((∀ p ∈ g.cur.points, isInt64 (g.pos.x + p.x) ∧ isInt64 (g.pos.y + p.y)) →
        ∀ y x : Int, occupied g1.matrix y x = true ↔
          (occupied g.matrix y x = true ∨
            ∃ p ∈ g.cur.points, g.pos.x + p.x = x ∧ g.pos.y + p.y = y ∧ 0 ≤ y)) := by
  obtain ⟨m1, hrun, hlen, hset, hkeep⟩ := addLoop_spec g.pos g.cur.points g.matrix hin
  have hiff : ∀ y x : Int, occupied m1 y x = true ↔
      (occupied g.matrix y x = true ∨
        ∃ p ∈ g.cur.points, add64 g.pos.x p.x = x ∧ add64 g.pos.y p.y = y ∧ 0 ≤ y) := by
    intro y x
    by_cases hex : ∃ p ∈ g.cur.points, add64 g.pos.x p.x = x ∧ add64 g.pos.y p.y = y ∧ 0 ≤ y
    · simp [occupied, hset y x hex, hex]
    · simp [occupied, hkeep y x hex, hex]
  refine ⟨{ g with matrix := m1 }, by simp [game.add, hrun], rfl, hlen, hiff, ?_, ?_, hkeep, ?_⟩
  · intro y x hocc
    exact (hiff y x).mpr (Or.inl hocc)
  · intro p hp hy
    exact hset _ _ ⟨p, hp, rfl, rfl, hy⟩
  · intro hrange y x
    rw [hiff y x]
    constructor
    · rintro (h | ⟨p, hp, hh⟩)
      · exact Or.inl h
      · rw [add64_eq _ _ (hrange p hp).1, add64_eq _ _ (hrange p hp).2] at hh
        exact Or.inr ⟨p, hp, hh⟩
    · rintro (h | ⟨p, hp, hh⟩)
      · exact Or.inl h
      · refine Or.inr ⟨p, hp, ?_⟩
        rw [add64_eq _ _ (hrange p hp).1, add64_eq _ _ (hrange p hp).2]
        exact hh

theorem add_spec_witness :
    (∀ p ∈ dropStart.cur.points, 0 ≤ add64 dropStart.pos.y p.y →
      (cellAt dropStart.matrix (add64 dropStart.pos.y p.y)
        (add64 dropStart.pos.x p.x)).isSome = true) ∧
    ∃ g1, dropStart.add = some g1 ∧ g1 = { dropStart with matrix := g1.matrix } ∧
      g1.matrix.map List.length = dropStart.matrix.map List.length :=
  have h : ∀ p ∈ dropStart.cur.points, 0 ≤ add64 dropStart.pos.y p.y →
      (cellAt dropStart.matrix (add64 dropStart.pos.y p.y)
        (add64 dropStart.pos.x p.x)).isSome = true := by
    decide
  ⟨h, by
    obtain ⟨g1, h1, h2, h3, _⟩ := add_spec dropStart h
    exact ⟨g1, h1, h2, h3⟩⟩

theorem turn_eq (cx cy : Int) (p : point) :
    turn cx cy p = ⟨wrap64 (cy - p.y + cx), wrap64 (p.x - cx + cy)⟩ := by
  unfold turn add64 sub64
  simp only [point.mk.injEq]
  unfold wrap64
  constructor <;> omega

theorem sumPoints_eq (ps : List point) :
    ∀ acc : Int × Int, isInt64 acc.1 → isInt64 acc.2 →
      sumPoints ps acc = (wrap64 (acc.1 + sumX ps), wrap64 (acc.2 + sumY ps)) := by
  induction ps with
  | nil =>
    intro acc h1 h2
    simp [sumPoints, sumX, sumY, wrap64_of_isInt64 _ h1, wrap64_of_isInt64 _ h2]
  | cons p ps ih =>
    intro acc _ _
    rw [sumPoints, ih _ (isInt64_wrap64 _) (isInt64_wrap64 _)]
    simp only [sumX, sumY, List.map_cons, List.sum_cons, add64]
    generalize (List.map (fun p => p.x) ps).sum = sx
    generalize (List.map (fun p => p.y) ps).sum = sy
    ext
    · simp only; unfold wrap64; omega
    · simp only; unfold wrap64; omega

theorem rotate_eq (b : block) (hne : b.points ≠ []) :
    b.rotate = some ⟨b.points.map
      (turn (Int.tdiv (wrap64 (sumX b.points)) b.points.length)
        (Int.tdiv (wrap64 (sumY b.points)) b.points.length))⟩ := by
  have hlen : b.points.length ≠ 0 := by
    intro h; exact hne (List.length_eq_zero.mp h)
  unfold block.rotate
  rw [sumPoints_eq b.points (0, 0) (by decide) (by decide)]
  simp only [hlen, if_false, zero_add]
  rfl

theorem sum_turn (cx cy : Int) (ps : List point) :
    wrap64 (sumX (ps.map (turn cx cy))) = wrap64 (ps.length * cy - sumY ps + ps.length * cx) ∧
      wrap64 (sumY (ps.map (turn cx cy))) =
        wrap64 (sumX ps - ps.length * cx + ps.length * cy) := by
  induction ps with
  | nil => simp [sumX, sumY]
  | cons p ps ih =>
    obtain ⟨hx, hy⟩ := ih
    simp only [sumX, sumY, List.map_cons, List.sum_cons, List.length_cons, turn_eq] at hx hy ⊢
    push_cast
    generalize (List.map (fun p => p.x) (List.map (turn cx cy) ps)).sum = tx at hx ⊢
    generalize (List.map (fun p => p.y) (List.map (turn cx cy) ps)).sum = ty at hy ⊢
    generalize (List.map (fun p => p.x) ps).sum = sx at hx hy ⊢
    generalize (List.map (fun p => p.y) ps).sum = sy at hx hy ⊢
    have e1 : ((ps.length : Int) + 1) * cy = (ps.length : Int) * cy + cy := by ring
    have e2 : ((ps.length : Int) + 1) * cx = (ps.length : Int) * cx + cx := by ring
    rw [e1, e2]
    generalize (ps.length : Int) * cy = ncy at hx hy ⊢
    generalize (ps.length : Int) * cx = ncx at hx hy ⊢
    unfold wrap64 at hx hy ⊢
    constructor <;> omega

/-- C5, counterexample: on the two points (2^62, 0) the sum of x is 2^63, which the code
holds as -2^63, so rotate returns (-2^62, -2^63) for both points, while the stated
formula with the exact sums gives (2^62, 0). -/
theorem rotate_wraps_around :
    wideBlock.rotate =
        some ⟨[⟨-4611686018427387904, -9223372036854775808⟩,
          ⟨-4611686018427387904, -9223372036854775808⟩]⟩ ∧
      wideBlock.points.map (fun p =>
        (⟨Int.tdiv (sumY wideBlock.points) wideBlock.points.length - p.y +
            Int.tdiv (sumX wideBlock.points) wideBlock.points.length,
          p.x - Int.tdiv (sumX wideBlock.points) wideBlock.points.length +
            Int.tdiv (sumY wideBlock.points) wideBlock.points.length⟩ : point)) =
        [⟨4611686018427387904, 0⟩, ⟨4611686018427387904, 0⟩] := by
  decide

/-- C5, amended: on a block with at least one point, rotate succeeds, keeps the number of
points and replaces the i-th point (px, py) by (cy - py + cx, px - cx + cy), with cx and
cy the sums of the original x and y coordinates divided by the point count, truncating
toward zero, both computed from the original points, every sum and difference being
taken in 64-bit wrap-around arithmetic; where the two sums and the two results are ints
as they stand, this is the exact formula. -/
theorem rotate_spec (b : block) (hne : b.points ≠ []) :
    ∃ b1, b.rotate = some b1 ∧ b1.points.length = b.points.length ∧
      (∀ (i : Nat) (p : point), b.points[i]? = some p →
        b1.points[i]? = some
          ⟨wrap64 (Int.tdiv (wrap64 (sumY b.points)) b.points.length - p.y +
              Int.tdiv (wrap64 (sumX b.points)) b.points.length),
            wrap64 (p.x - Int.tdiv (wrap64 (sumX b.points)) b.points.length +
              Int.tdiv (wrap64 (sumY b.points)) b.points.length)⟩) ∧
      (isInt64 (sumX b.points) → isInt64 (sumY b.points) →
        ∀ (i : Nat) (p : point), b.points[i]? = some p →
          isInt64 (Int.tdiv (sumY b.points) b.points.length - p.y +
            Int.tdiv (sumX b.points) b.points.length) →
          isInt64 (p.x - Int.tdiv (sumX b.points) b.points.length +
            Int.tdiv (sumY b.points) b.points.length) →
          b1.points[i]? = some
            ⟨Int.tdiv (sumY b.points) b.points.length - p.y +
                Int.tdiv (sumX b.points) b.points.length,
              p.x - Int.tdiv (sumX b.points) b.points.length +
                Int.tdiv (sumY b.points) b.points.length⟩) := by
  have hmain : ∀ (i : Nat) (p : point), b.points[i]? = some p →
      (b.points.map
        (turn (Int.tdiv (wrap64 (sumX b.points)) b.points.length)
          (Int.tdiv (wrap64 (sumY b.points)) b.points.length)))[i]? = some
        ⟨wrap64 (Int.tdiv (wrap64 (sumY b.points)) b.points.length - p.y +
            Int.tdiv (wrap64 (sumX b.points)) b.points.length),
          wrap64 (p.x - Int.tdiv (wrap64 (sumX b.points)) b.points.length +
            Int.tdiv (wrap64 (sumY b.points)) b.points.length)⟩ := by
    intro i p hp
    simp [List.getElem?_map, hp, turn_eq]
  refine ⟨_, rotate_eq b hne, by simp, hmain, ?_⟩
  intro hsx hsy i p hp h1 h2
  refine (hmain i p hp).trans ?_
  rw [wrap64_of_isInt64 _ hsx, wrap64_of_isInt64 _ hsy, wrap64_of_isInt64 _ h1,
    wrap64_of_isInt64 _ h2]

theorem rotate_spec_witness :
    (catalog.getD 0 ⟨[]⟩).points ≠ [] ∧
      ∃ b1, (catalog.getD 0 ⟨[]⟩).rotate = some b1 ∧
        b1.points.length = (catalog.getD 0 ⟨[]⟩).points.length :=
  ⟨by decide, by
    obtain ⟨b1, h1, h2, _⟩ := rotate_spec (catalog.getD 0 ⟨[]⟩) (by decide)
    exact ⟨b1, h1, h2⟩⟩

theorem turn_centred (b : block) (cx cy : Int) (hne : b.points ≠ [])
    (hx : wrap64 (sumX b.points) = b.points.length * cx)
    (hy : wrap64 (sumY b.points) = b.points.length * cy) :
    b.rotate = some ⟨b.points.map (turn cx cy)⟩ ∧
      wrap64 (sumX (b.points.map (turn cx cy))) = (b.points.map (turn cx cy)).length * cx ∧
      wrap64 (sumY (b.points.map (turn cx cy))) = (b.points.map (turn cx cy)).length * cy := by
  have hlen : (b.points.length : Int) ≠ 0 := by
    intro h
    exact hne (List.length_eq_zero.mp (by exact_mod_cast h))
  have ex : Int.tdiv (wrap64 (sumX b.points)) b.points.length = cx := by
    rw [hx]; exact Int.mul_tdiv_cancel_left cx hlen
  have ey : Int.tdiv (wrap64 (sumY b.points)) b.points.length = cy := by
    rw [hy]; exact Int.mul_tdiv_cancel_left cy hlen
  obtain ⟨s1, s2⟩ := sum_turn cx cy b.points
  refine ⟨by rw [rotate_eq b hne, ex, ey], ?_, ?_⟩
  · rw [s1, List.length_map]
    generalize (b.points.length : Int) * cx = ncx at hx ⊢
    generalize (b.points.length : Int) * cy = ncy at hy ⊢
    generalize sumX b.points = sx at hx ⊢
    generalize sumY b.points = sy at hy ⊢
    unfold wrap64 at hx hy ⊢
    omega
  · rw [s2, List.length_map]
    generalize (b.points.length : Int) * cx = ncx at hx ⊢
    generalize (b.points.length : Int) * cy = ncy at hy ⊢
    generalize sumX b.points = sx at hx ⊢
    generalize sumY b.points = sy at hy ⊢
    unfold wrap64 at hx hy ⊢
    omega

theorem turn_four (cx cy : Int) (p : point) :
    turn cx cy (turn cx cy (turn cx cy (turn cx cy p))) = ⟨wrap64 p.x, wrap64 p.y⟩ := by
  cases p with
  | mk x y =>
    simp only [turn_eq, point.mk.injEq]
    unfold wrap64
    constructor <;> omega

theorem rotate_four_of_centre (b : block) (cx cy : Int) (hne : b.points ≠ [])
    (hrange : ∀ p ∈ b.points, isInt64 p.x ∧ isInt64 p.y)
    (hcx : wrap64 (sumX b.points) = b.points.length * cx)
    (hcy : wrap64 (sumY b.points) = b.points.length * cy) :
    rotateTimes 4 b = some b := by
  have hmap : ∀ (ps : List point), ps ≠ [] → ps.map (turn cx cy) ≠ [] := by
    intro ps h; simpa using h
  obtain ⟨r1, sx1, sy1⟩ := turn_centred b cx cy hne hcx hcy
  have n1 := hmap _ hne
  obtain ⟨r2, sx2, sy2⟩ := turn_centred ⟨b.points.map (turn cx cy)⟩ cx cy n1 sx1 sy1
  have n2 := hmap _ n1
  obtain ⟨r3, sx3, sy3⟩ := turn_centred ⟨(b.points.map (turn cx cy)).map (turn cx cy)⟩
    cx cy n2 sx2 sy2
  have n3 := hmap _ n2
  obtain ⟨r4, _, _⟩ := turn_centred
    ⟨((b.points.map (turn cx cy)).map (turn cx cy)).map (turn cx cy)⟩ cx cy n3 sx3 sy3
  simp only [rotateTimes, r1, r2, r3, r4, Option.some_bind]
  congr 1
  cases b with
  | mk ps =>
    simp only [List.map_map, block.mk.injEq]
    conv_rhs => rw [← List.map_id ps]
    apply List.map_congr_left
    intro p hp
    simp only [Function.comp, turn_four, id]
    rw [wrap64_of_isInt64 _ (hrange p hp).1, wrap64_of_isInt64 _ (hrange p hp).2]

/-- C6, counterexample: the three points (2^62, 0) have coordinate sums 3 * 2^62 and 0,
both exact multiples of 3, yet four calls of rotate give (2^62 + 2, 0) three times: the
code holds the sum of x as -2^62 after wrap-around, which 3 does not divide. -/
theorem rotate_four_wraps :
    tripleBlock.points ≠ [] ∧
      ((tripleBlock.points.length : Int) ∣ sumX tripleBlock.points) ∧
      ((tripleBlock.points.length : Int) ∣ sumY tripleBlock.points) ∧
      rotateTimes 4 tripleBlock =
        some ⟨[⟨4611686018427387906, 0⟩, ⟨4611686018427387906, 0⟩,
          ⟨4611686018427387906, 0⟩]⟩ ∧
      rotateTimes 4 tripleBlock ≠ some tripleBlock := by
  decide

/-- C6, amended: for a non-empty block of int coordinates whose centroid divides evenly
in the arithmetic of the code (the sum of the x coordinates and the sum of the y
coordinates, reduced to 64 bits, are exact multiples of the point count), four calls of
rotate succeed and give back the block, every point with its original value and in the
original order; this covers every block whose exact sums are ints and multiples of the
point count. -/
theorem rotate_four_exact (b : block) (hne : b.points ≠ [])
    (hrange : ∀ p ∈ b.points, isInt64 p.x ∧ isInt64 p.y) :
    ((b.points.length : Int) ∣ wrap64 (sumX b.points) →
      (b.points.length : Int) ∣ wrap64 (sumY b.points) → rotateTimes 4 b = some b) ∧
    (isInt64 (sumX b.points) → isInt64 (sumY b.points) →
      (b.points.length : Int) ∣ sumX b.points → (b.points.length : Int) ∣ sumY b.points →
      rotateTimes 4 b = some b) := by
  have hmain : (b.points.length : Int) ∣ wrap64 (sumX b.points) →
      (b.points.length : Int) ∣ wrap64 (sumY b.points) → rotateTimes 4 b = some b := by
    rintro ⟨cx, hcx⟩ ⟨cy, hcy⟩
    exact rotate_four_of_centre b cx cy hne hrange hcx hcy
  refine ⟨hmain, ?_⟩
  intro hsx hsy hx hy
  apply hmain
  · rw [wrap64_of_isInt64 _ hsx]; exact hx
  · rw [wrap64_of_isInt64 _ hsy]; exact hy

theorem rotate_four_exact_witness :
    ringBlock.points ≠ [] ∧ (∀ p ∈ ringBlock.points, isInt64 p.x ∧ isInt64 p.y) ∧
      ((ringBlock.points.length : Int) ∣ wrap64 (sumX ringBlock.points)) ∧
      ((ringBlock.points.length : Int) ∣ wrap64 (sumY ringBlock.points)) ∧
      rotateTimes 4 ringBlock = some ringBlock :=
  ⟨by decide, by decide, by decide, by decide,
    (rotate_four_exact ringBlock (by decide) (by decide)).1 (by decide) (by decide)⟩

set_option maxRecDepth 100000 in
/-- C16: four calls of rotate on the I template (0,0)(0,1)(0,2)(0,3) give
(0,-2)(0,-1)(0,0)(0,1): not the original points but the original moved by (0, -2). -/
theorem rotate_four_drifts :
    catalog[0]? = some ⟨[⟨0, 0⟩, ⟨0, 1⟩, ⟨0, 2⟩, ⟨0, 3⟩]⟩ ∧
      rotateTimes 4 ⟨[⟨0, 0⟩, ⟨0, 1⟩, ⟨0, 2⟩, ⟨0, 3⟩]⟩ =
        some ⟨[⟨0, -2⟩, ⟨0, -1⟩, ⟨0, 0⟩, ⟨0, 1⟩]⟩ ∧
      rotateTimes 4 ⟨[⟨0, 0⟩, ⟨0, 1⟩, ⟨0, 2⟩, ⟨0, 3⟩]⟩ ≠
        some ⟨[⟨0, 0⟩, ⟨0, 1⟩, ⟨0, 2⟩, ⟨0, 3⟩]⟩ ∧
      translate 0 (-2) [⟨0, 0⟩, ⟨0, 1⟩, ⟨0, 2⟩, ⟨0, 3⟩] =
        [⟨0, -2⟩, ⟨0, -1⟩, ⟨0, 0⟩, ⟨0, 1⟩] := by
  decide

theorem turn_four_centres (a1 b1 a2 b2 a3 b3 a4 b4 : Int) (p : point) :
    turn a4 b4 (turn a3 b3 (turn a2 b2 (turn a1 b1 p))) =
      ⟨add64 p.x (b4 - b2 - a1 + b1 - a2 + a3 - b3 + a4),
        add64 p.y (b3 - b1 - a1 + a2 - b2 + a3 - a4 + b4)⟩ := by
  cases p with
  | mk x y =>
    simp only [turn_eq, add64, point.mk.injEq]
    unfold wrap64
    constructor <;> omega

theorem rotate_is_turn (b : block) (hne : b.points ≠ []) :
    ∃ cx cy, b.rotate = some ⟨b.points.map (turn cx cy)⟩ ∧ b.points.map (turn cx cy) ≠ [] :=
  ⟨_, _, rotate_eq b hne, by simpa using hne⟩

set_option maxRecDepth 100000 in
/-- C17, counterexample: on the I shape placed at the least int rows, (0, -2^63) to
(0, -2^63 + 3), four calls of rotate give (0, 2^63 - 2), (0, 2^63 - 1), (0, -2^63),
(0, -2^63 + 1): two points moved by 2^64 - 2 and two by -2, so no single offset. -/
theorem rotate_four_no_offset :
    rotateTimes 4 lowBlock =
        some ⟨[⟨0, 9223372036854775806⟩, ⟨0, 9223372036854775807⟩,
          ⟨0, -9223372036854775808⟩, ⟨0, -9223372036854775807⟩]⟩ ∧
      ¬ ∃ dx dy : Int, rotateTimes 4 lowBlock = some ⟨translate dx dy lowBlock.points⟩ := by
  have h : rotateTimes 4 lowBlock =
      some ⟨[⟨0, 9223372036854775806⟩, ⟨0, 9223372036854775807⟩,
        ⟨0, -9223372036854775808⟩, ⟨0, -9223372036854775807⟩]⟩ := by decide
  refine ⟨h, ?_⟩
  rintro ⟨dx, dy, hd⟩
  rw [h] at hd
  simp only [translate, lowBlock, List.map_cons, List.map_nil, Option.some.injEq,
    block.mk.injEq, List.cons.injEq, point.mk.injEq] at hd
  omega

/-- C17, amended: on every block with at least one point, four calls of rotate succeed
and give the original points, in order, all moved by one and the same integer offset
(dx, dy) in 64-bit wrap-around arithmetic; when no point plus the offset leaves the int
range, this is the exact translation by (dx, dy). -/
theorem rotate_four_translates (b : block) (hne : b.points ≠ []) :
    ∃ dx dy : Int, rotateTimes 4 b = some ⟨translate64 dx dy b.points⟩ ∧
      ((∀ p ∈ b.points, isInt64 (p.x + dx) ∧ isInt64 (p.y + dy)) →
        rotateTimes 4 b = some ⟨translate dx dy b.points⟩) := by
  obtain ⟨a1, b1, r1, n1⟩ := rotate_is_turn b hne
  obtain ⟨a2, b2, r2, n2⟩ := rotate_is_turn ⟨b.points.map (turn a1 b1)⟩ n1
  obtain ⟨a3, b3, r3, n3⟩ := rotate_is_turn ⟨(b.points.map (turn a1 b1)).map (turn a2 b2)⟩ n2
  obtain ⟨a4, b4, r4, _⟩ := rotate_is_turn
    ⟨((b.points.map (turn a1 b1)).map (turn a2 b2)).map (turn a3 b3)⟩ n3
  have hfour : rotateTimes 4 b = some ⟨translate64
      (b4 - b2 - a1 + b1 - a2 + a3 - b3 + a4) (b3 - b1 - a1 + a2 - b2 + a3 - a4 + b4)
      b.points⟩ := by
    simp only [rotateTimes, r1, r2, r3, r4, Option.some_bind]
    congr 2
    simp only [List.map_map, translate64]
    apply List.map_congr_left
    intro p _
    simp [Function.comp, turn_four_centres]
  refine ⟨_, _, hfour, ?_⟩
  intro hin
  rw [hfour]
  congr 2
  simp only [translate64, translate]
  apply List.map_congr_left
  intro p hp
  rw [add64_eq _ _ (hin p hp).1, add64_eq _ _ (hin p hp).2]

theorem rotate_four_translates_witness :
    (catalog.getD 2 ⟨[]⟩).points ≠ [] ∧
      ∃ dx dy : Int, rotateTimes 4 (catalog.getD 2 ⟨[]⟩) =
        some ⟨translate64 dx dy (catalog.getD 2 ⟨[]⟩).points⟩ :=
  ⟨by decide, by
    obtain ⟨dx, dy, h, _⟩ := rotate_four_translates (catalog.getD 2 ⟨[]⟩) (by decide)
    exact ⟨dx, dy, h⟩⟩

theorem rotateCurrent_view (g : game) :
    (g.rotateCurrent).map game.view =
      (block.rotate ⟨g.cur.points⟩).map fun b => { g.view with piece := b.points } := by
  unfold game.rotateCurrent
  cases hc : g.current with
  | detached b =>
    have hcur : g.cur = b := by simp [game.cur, hc]
    simp only [hcur, Option.map_map]
    congr 1
  | template i =>
    have hcur : g.cur = g.tetrominos.getD i ⟨[]⟩ := by simp [game.cur, hc]
    by_cases hi : i < g.tetrominos.length
    · simp only [Option.map_map]
      congr 1
      funext b1
      simp [game.view, game.cur, hc, Function.comp, List.getD_eq_getElem?_getD, hi]
    · have hempty : g.cur = ⟨[]⟩ := by
        rw [hcur, List.getD_eq_getElem?_getD, List.getElem?_eq_none (by omega)]
        rfl
      simp [hempty, block.rotate]

theorem rotateCurrent_frame (g g1 : game) (h : g.rotateCurrent = some g1) :
    g1.matrix = g.matrix ∧ g1.score = g.score ∧ g1.lines = g.lines ∧ g1.level = g.level ∧
      g1.pos = g.pos ∧ g1.over = g.over := by
  unfold game.rotateCurrent at h
  split at h
  · simp only [Option.map_eq_some'] at h
    obtain ⟨b1, _, rfl⟩ := h
    simp
  · simp only [Option.map_eq_some'] at h
    obtain ⟨b1, _, rfl⟩ := h
    simp

theorem move_view (g : game) (q back : point) (hback : back = g.pos) :
    ((({ g with pos := q } : game).collides).map fun c =>
        if c then ({ g with pos := back } : game) else { g with pos := q }).map game.view =
      (collidesLoop g.matrix q g.cur.points).map fun c =>
        if c then g.view else { g.view with position := q } := by
  subst hback
  have hcur : ∀ p : point, ({ g with pos := p } : game).cur = g.cur := fun _ => rfl
  unfold game.collides
  simp only [hcur, Option.map_map]
  congr 1
  funext c
  cases c <;> rfl

theorem move_frame (g g1 : game) (q back : point)
    (h : ((({ g with pos := q } : game).collides).map fun c =>
        if c then ({ g with pos := back } : game) else { g with pos := q }) = some g1) :
    g1.matrix = g.matrix ∧ g1.score = g.score ∧ g1.lines = g.lines ∧ g1.level = g.level := by
  simp only [Option.map_eq_some'] at h
  obtain ⟨c, _, rfl⟩ := h
  cases c <;> simp

theorem move_total (g : game) (q back : point) (w : Nat) (hrect : rectangular g.matrix w)
    (hrows : 0 < g.matrix.length) :
    (((({ g with pos := q } : game).collides).map fun c =>
        if c then ({ g with pos := back } : game) else { g with pos := q })).isSome = true := by
  obtain ⟨b, hb, _⟩ := collidesLoop_spec g.matrix w hrect hrows q g.cur.points
  have hb1 : ({ g with pos := q } : game).collides = some b := hb
  simp [hb1]

theorem rotateCurrent_total (g : game) (hne : g.cur.points ≠ []) :
    (g.rotateCurrent).isSome = true := by
  unfold game.rotateCurrent
  split
  · rename_i b hb
    have hcur : g.cur = b := by simp [game.cur, hb]
    rw [← hcur, rotate_eq g.cur hne]; rfl
  · rw [rotate_eq g.cur hne]; rfl

/-- C9, counterexample: at position x = -2^63, with the piece in column 1 of the empty
board, the key a turns position.x into 2^63 - 1: the position is neither changed by -1
nor left as it was. -/
theorem input_wraps_around :
    leftEdge.collides = some false ∧
      (leftEdge.input 'a').map (fun s => s.pos) = some ⟨9223372036854775807, 0⟩ ∧
      (9223372036854775807 : Int) ≠ leftEdge.pos.x - 1 ∧
      (9223372036854775807 : Int) ≠ leftEdge.pos.x := by
  decide

theorem input_table (g : game) (c : Char) :
    (isInt64 g.pos.x → isInt64 g.pos.y →
      (g.input c).map game.view = HandleInput g.view (Command.ofKey c)) ∧
      (∀ g1, g.input c = some g1 →
        g1.matrix = g.matrix ∧ g1.score = g.score ∧ g1.lines = g.lines ∧ g1.level = g.level) ∧
      (∀ w, rectangular g.matrix w → 0 < g.matrix.length → g.cur.points ≠ [] →
        (g.input c).isSome = true) := by
  have ex1 : isInt64 g.pos.x → add64 (sub64 g.pos.x 1) 1 = g.pos.x := by
    intro h; unfold isInt64 at h; unfold add64 sub64 wrap64; omega
  have ex2 : isInt64 g.pos.x → sub64 (add64 g.pos.x 1) 1 = g.pos.x := by
    intro h; unfold isInt64 at h; unfold add64 sub64 wrap64; omega
  have ey : isInt64 g.pos.y → sub64 (add64 g.pos.y 1) 1 = g.pos.y := by
    intro h; unfold isInt64 at h; unfold add64 sub64 wrap64; omega
  unfold game.input Command.ofKey
  by_cases h1 : c = 'w' ∨ c = 'j'
  · simp only [h1, if_true, HandleInput]
    exact ⟨fun _ _ => rotateCurrent_view g, fun g1 h => by
      have := rotateCurrent_frame g g1 h; tauto, fun w _ _ hne => rotateCurrent_total g hne⟩
  by_cases h2 : c = 'a' ∨ c = 'h'
  · simp only [h1, h2, if_true, if_false, HandleInput, GameState.moveTo]
    exact ⟨fun hx _ => move_view g _ _ (by simp [ex1 hx]), fun g1 h => move_frame g g1 _ _ h,
      fun w hr hp _ => move_total g _ _ w hr hp⟩
  by_cases h3 : c = 's' ∨ c = 'k'
  · simp only [h1, h2, h3, if_true, if_false, HandleInput, GameState.moveTo]
    exact ⟨fun _ hy => move_view g _ _ (by simp [ey hy]), fun g1 h => move_frame g g1 _ _ h,
      fun w hr hp _ => move_total g _ _ w hr hp⟩
  by_cases h4 : c = 'd' ∨ c = 'l'
  · simp only [h1, h2, h3, h4, if_true, if_false, HandleInput, GameState.moveTo]
    exact ⟨fun hx _ => move_view g _ _ (by simp [ex2 hx]), fun g1 h => move_frame g g1 _ _ h,
      fun w hr hp _ => move_total g _ _ w hr hp⟩
  by_cases h5 : c = 'q'
  · subst h5
    simp only [h1, h2, h3, h4, if_true, if_false, HandleInput]
    refine ⟨fun _ _ => rfl, fun g1 h => ?_, fun _ _ _ _ => rfl⟩
    simp only [Option.some.injEq] at h
    subst h
    simp
  · simp only [h1, h2, h3, h4, h5, if_false, HandleInput]
    refine ⟨fun _ _ => rfl, fun g1 h => ?_, fun _ _ _ _ => rfl⟩
    simp only [Option.some.injEq] at h
    subst h
    simp

theorem table_exact (s : GameState) (hx : isInt64 s.position.x) (hy : isInt64 s.position.y) :
    (-9223372036854775808 < s.position.x →
        HandleInput s .moveLeft = s.moveTo ⟨s.position.x - 1, s.position.y⟩) ∧
      (s.position.x < 9223372036854775807 →
        HandleInput s .moveRight = s.moveTo ⟨s.position.x + 1, s.position.y⟩) ∧
      (s.position.y < 9223372036854775807 →
        HandleInput s .moveDown = s.moveTo ⟨s.position.x, s.position.y + 1⟩) := by
  unfold isInt64 at hx hy
  refine ⟨fun h => ?_, fun h => ?_, fun h => ?_⟩
  · simp only [HandleInput]
    rw [sub64_eq _ _ (by unfold isInt64; omega)]
  · simp only [HandleInput]
    rw [add64_eq _ _ (by unfold isInt64; omega)]
  · simp only [HandleInput]
    rw [add64_eq _ _ (by unfold isInt64; omega)]

/-- C9, amended: on the specification's view of the state (board, piece, position, score,
line count, level, over), for a position of int coordinates, input is the command
table: the move keys change position.x by -1 or +1 or position.y by +1, in 64-bit
wrap-around arithmetic, when the piece does not collide at the shifted position, and
leave the position as it was otherwise; the rotate keys replace the piece by
rotate(piece) with no collision test, q sets over, any other key changes nothing. The
shift is the exact one unless it starts from the least or the greatest int. In every
state board, score, line count and level are unchanged, and on a rectangular board with
a row and a non-empty piece input always returns. -/
theorem input_refines (g : game) (c : Char) :
    (isInt64 g.pos.x → isInt64 g.pos.y →
      (g.input c).map game.view = HandleInput g.view (Command.ofKey c)) ∧
      (isInt64 g.pos.x → isInt64 g.pos.y →
        (-9223372036854775808 < g.pos.x →
          HandleInput g.view .moveLeft = g.view.moveTo ⟨g.pos.x - 1, g.pos.y⟩) ∧
        (g.pos.x < 9223372036854775807 →
          HandleInput g.view .moveRight = g.view.moveTo ⟨g.pos.x + 1, g.pos.y⟩) ∧
        (g.pos.y < 9223372036854775807 →
          HandleInput g.view .moveDown = g.view.moveTo ⟨g.pos.x, g.pos.y + 1⟩)) ∧
      (∀ g1, g.input c = some g1 →
        g1.matrix = g.matrix ∧ g1.score = g.score ∧ g1.lines = g.lines ∧ g1.level = g.level) ∧
      (∀ w, rectangular g.matrix w → 0 < g.matrix.length → g.cur.points ≠ [] →
        (g.input c).isSome = true) :=
  ⟨(input_table g c).1, fun hx hy => table_exact g.view hx hy, (input_table g c).2.1,
    (input_table g c).2.2⟩

theorem input_refines_witness :
    isInt64 dropStart.pos.x ∧ isInt64 dropStart.pos.y ∧
      (dropStart.input 'a').map game.view = HandleInput dropStart.view (Command.ofKey 'a') :=
  ⟨by decide, by decide, (input_refines dropStart 'a').1 (by decide) (by decide)⟩

theorem valid_cells (m : List (List Int)) (w : Nat) (hrect : rectangular m w)
    (hrows : 0 < m.length) (pos : point) (ps : List point)
    (hvalid : collidesLoop m pos ps = some false) :
    ∀ p ∈ ps, 0 ≤ add64 pos.x p.x ∧ add64 pos.x p.x < w ∧ add64 pos.y p.y < m.length ∧
      occupied m (add64 pos.y p.y) (add64 pos.x p.x) = false ∧
      (0 ≤ add64 pos.y p.y → (cellAt m (add64 pos.y p.y) (add64 pos.x p.x)).isSome = true) := by
  obtain ⟨b, hb, hiff⟩ := collidesLoop_spec m w hrect hrows pos ps
  rw [hvalid, Option.some.injEq] at hb
  subst hb
  intro p hp
  have hnot : ¬ (add64 pos.x p.x < 0 ∨ add64 pos.x p.x ≥ w ∨ add64 pos.y p.y ≥ m.length ∨
      (add64 pos.y p.y ≥ 0 ∧ occupied m (add64 pos.y p.y) (add64 pos.x p.x) = true)) := by
    intro hh
    have := hiff.mpr ⟨p, hp, hh⟩
    cases this
  have h1 : 0 ≤ add64 pos.x p.x := by omega
  have h2 : add64 pos.x p.x < w := by omega
  have h3 : add64 pos.y p.y < m.length := by omega
  refine ⟨h1, h2, h3, ?_, ?_⟩
  · by_cases hy : 0 ≤ add64 pos.y p.y
    · cases hocc : occupied m (add64 pos.y p.y) (add64 pos.x p.x) with
      | false => rfl
      | true => exact absurd (Or.inr (Or.inr (Or.inr ⟨hy, hocc⟩))) hnot
    · unfold occupied cellAt
      rw [if_pos (Or.inl (by omega))]
  · intro hy
    obtain ⟨_, c, _, _, hcell⟩ := cellAt_inside m w hrect _ _ hy h3 h1 h2
    rw [hcell]; rfl

theorem move_valid (g : game) (w : Nat) (hrect : rectangular g.matrix w)
    (hrows : 0 < g.matrix.length) (hvalid : g.collides = some false) (q back : point)
    (hbx : wrap64 back.x = wrap64 g.pos.x) (hby : wrap64 back.y = wrap64 g.pos.y) :
    ∃ g1, ((({ g with pos := q } : game).collides).map fun c =>
        if c then ({ g with pos := back } : game) else { g with pos := q }) = some g1 ∧
      g1.collides = some false ∧ g1.matrix = g.matrix ∧ g1.cur = g.cur := by
  obtain ⟨b, hb, _⟩ := collidesLoop_spec g.matrix w hrect hrows q g.cur.points
  have hb1 : ({ g with pos := q } : game).collides = some b := hb
  have hback : ({ g with pos := back } : game).collides = some false := by
    have : ({ g with pos := back } : game).collides = g.collides :=
      collidesLoop_congr g.matrix back g.pos hbx hby g.cur.points
    rw [this]; exact hvalid
  rw [hb1]
  cases b with
  | true => exact ⟨_, rfl, hback, rfl, rfl⟩
  | false => exact ⟨_, rfl, hb1, rfl, rfl⟩

/-- C18: on a rectangular board with at least one row, when the active piece does not
collide at its position, each move key (left, down, right) makes input return a state
in which the piece still does not collide: every cell, as the code computes it, has
0 <= x < width, y < height and is not an occupied board cell, and this holds of the
exact sums pos + p wherever these are ints. The rotate key does not keep this: the
I piece at (0, 0) on the empty board does not collide, and collides after one rotate
key. -/
theorem moves_keep_valid (g : game) (w : Nat) (hrect : rectangular g.matrix w)
    (hrows : 0 < g.matrix.length) (hvalid : g.collides = some false) (c : Char)
    (hmove : Command.ofKey c = .moveLeft ∨ Command.ofKey c = .moveDown ∨
      Command.ofKey c = .moveRight) :
    (∃ g1, g.input c = some g1 ∧ g1.collides = some false ∧
      (∀ p ∈ g1.cur.points, 0 ≤ add64 g1.pos.x p.x ∧ add64 g1.pos.x p.x < w ∧
        add64 g1.pos.y p.y < g1.matrix.length ∧
        occupied g1.matrix (add64 g1.pos.y p.y) (add64 g1.pos.x p.x) = false) ∧
      (∀ p ∈ g1.cur.points, isInt64 (g1.pos.x + p.x) → isInt64 (g1.pos.y + p.y) →
        0 ≤ g1.pos.x + p.x ∧ g1.pos.x + p.x < w ∧
        g1.pos.y + p.y < g1.matrix.length ∧
        occupied g1.matrix (g1.pos.y + p.y) (g1.pos.x + p.x) = false)) ∧
      ({ dropStart with pos := ⟨0, 0⟩ } : game).collides = some false ∧
      (({ dropStart with pos := ⟨0, 0⟩ } : game).input 'w').bind game.collides = some true := by
  refine ⟨?_, by decide, by decide⟩
  have hfinish : ∀ g1 : game, g1.collides = some false → g1.matrix = g.matrix →
      (∀ p ∈ g1.cur.points, 0 ≤ add64 g1.pos.x p.x ∧ add64 g1.pos.x p.x < w ∧
        add64 g1.pos.y p.y < g1.matrix.length ∧
        occupied g1.matrix (add64 g1.pos.y p.y) (add64 g1.pos.x p.x) = false) ∧
      (∀ p ∈ g1.cur.points, isInt64 (g1.pos.x + p.x) → isInt64 (g1.pos.y + p.y) →
        0 ≤ g1.pos.x + p.x ∧ g1.pos.x + p.x < w ∧
        g1.pos.y + p.y < g1.matrix.length ∧
        occupied g1.matrix (g1.pos.y + p.y) (g1.pos.x + p.x) = false) := by
    intro g1 hcol hm
    have hcells := valid_cells g1.matrix w (by rw [hm]; exact hrect) (by rw [hm]; exact hrows)
      g1.pos g1.cur.points hcol
    refine ⟨fun p hp => ⟨(hcells p hp).1, (hcells p hp).2.1, (hcells p hp).2.2.1,
      (hcells p hp).2.2.2.1⟩, ?_⟩
    intro p hp hx hy
    have := hcells p hp
    rw [add64_eq _ _ hx, add64_eq _ _ hy] at this
    exact ⟨this.1, this.2.1, this.2.2.1, this.2.2.2.1⟩
  unfold Command.ofKey at hmove
  unfold game.input
  by_cases h1 : c = 'w' ∨ c = 'j'
  · simp [h1] at hmove
  by_cases h2 : c = 'a' ∨ c = 'h'
  · simp only [h1, h2, if_true, if_false]
    obtain ⟨g1, hg1, hcol, hm, _⟩ := move_valid g w hrect hrows hvalid
      ⟨sub64 g.pos.x 1, g.pos.y⟩ ⟨add64 (sub64 g.pos.x 1) 1, g.pos.y⟩ (add64_sub64 _) rfl
    exact ⟨g1, hg1, hcol, hfinish g1 hcol hm⟩
  by_cases h3 : c = 's' ∨ c = 'k'
  · simp only [h1, h2, h3, if_true, if_false]
    obtain ⟨g1, hg1, hcol, hm, _⟩ := move_valid g w hrect hrows hvalid
      ⟨g.pos.x, add64 g.pos.y 1⟩ ⟨g.pos.x, sub64 (add64 g.pos.y 1) 1⟩ rfl (sub64_add64 _)
    exact ⟨g1, hg1, hcol, hfinish g1 hcol hm⟩
  by_cases h4 : c = 'd' ∨ c = 'l'
  · simp only [h1, h2, h3, h4, if_true, if_false]
    obtain ⟨g1, hg1, hcol, hm, _⟩ := move_valid g w hrect hrows hvalid
      ⟨add64 g.pos.x 1, g.pos.y⟩ ⟨sub64 (add64 g.pos.x 1) 1, g.pos.y⟩ (sub64_add64 _) rfl
    exact ⟨g1, hg1, hcol, hfinish g1 hcol hm⟩
  · by_cases h5 : c = 'q' <;> simp [h1, h2, h3, h4, h5] at hmove

theorem moves_keep_valid_witness :
    rectangular dropStart.matrix 10 ∧ 0 < dropStart.matrix.length ∧
      dropStart.collides = some false ∧
      ∃ g1, dropStart.input 'd' = some g1 ∧ g1.collides = some false :=
  ⟨by decide, by decide, by decide, by
    obtain ⟨⟨g1, h1, h2, _⟩, _⟩ := moves_keep_valid dropStart 10 (by decide) (by decide)
      (by decide) 'd' (by decide)
    exact ⟨g1, h1, h2⟩⟩

theorem lockAndSpawn_draw_mod (g : game) (r : Nat) :
    g.lockAndSpawn r = g.lockAndSpawn (r % g.tetrominos.length) := by
  unfold game.lockAndSpawn
  cases hadd : ({ g with pos := ⟨g.pos.x, sub64 g.pos.y 1⟩ } : game).add with
  | none => rfl
  | some g1 =>
    have ht : g1.tetrominos = g.tetrominos := (add_tetrominos _ g1 hadd).1
    simp only [ht, Nat.mod_mod]

theorem update_draw_mod (g : game) (r : Nat) :
    g.update r = g.update (r % g.tetrominos.length) := by
  unfold game.update
  split
  · rfl
  · have e : ∀ g2 : game, g2.tetrominos = g.tetrominos →
        g2.lockAndSpawn r = g2.lockAndSpawn (r % g.tetrominos.length) := by
      intro g2 h2
      rw [lockAndSpawn_draw_mod g2 r, h2]
    simp only
    split
    · rfl
    · rw [e _ (by split <;> rfl)]
    · rfl

theorem fallen_step : ∀ i < 7, ∀ k < 16, (fallen k).update i = some (fallen (k + 1)) := by
  decide

theorem fallen_lands : ∀ i < 7, (fallen 16).update i =
    some { dropStart with matrix := landedBoard, current := .template i, pos := ⟨5, 0⟩ } := by
  decide

theorem fallen_update (r k : Nat) (hk : k < 16) : (fallen k).update r = some (fallen (k + 1)) := by
  rw [update_draw_mod]
  exact fallen_step (r % 7) (Nat.mod_lt r (by decide)) k hk

theorem ticks_fallen (rs : List Nat) :
    ∀ k : Nat, k + rs.length ≤ 16 → ticks rs (fallen k) = some (fallen (k + rs.length)) := by
  induction rs with
  | nil => intro k _; rfl
  | cons r rs ih =>
    intro k hk
    simp only [List.length_cons] at hk
    rw [ticks, fallen_update r k (by omega), Option.some_bind, ih (k + 1) (by omega)]
    simp only [List.length_cons]
    congr 2
    omega

theorem ticks_append (rs ss : List Nat) :
    ∀ g : game, ticks (rs ++ ss) g = (ticks rs g).bind (ticks ss) := by
  induction rs with
  | nil => intro g; rfl
  | cons r rs ih =>
    intro g
    simp only [List.cons_append, ticks]
    cases g.update r with
    | none => rfl
    | some g1 => simp [ih g1]

/-- C10: from the empty 20 x 10 board with the I piece at (5, 0), the state that init
yields when the I piece is drawn, k <= 16 ticks without input give the same state with
the piece at (5, k) and the board still empty, whatever is drawn; a 17th tick yields the
board with exactly the cells (5,16), (5,17), (5,18), (5,19) occupied, the drawn catalog
piece at (5, 0), over still false, and score, line count and level still 0. -/
theorem drop_scenario :
    start 0 = some dropStart ∧
      dropStart.cur.points = [⟨0, 0⟩, ⟨0, 1⟩, ⟨0, 2⟩, ⟨0, 3⟩] ∧
      dropStart.matrix = emptyBoard ∧ dropStart.pos = ⟨5, 0⟩ ∧ dropStart.over = false ∧
      (∀ rs : List Nat, rs.length ≤ 16 →
        ticks rs dropStart = some { dropStart with pos := ⟨5, (rs.length : Int)⟩ }) ∧
      (∀ (rs : List Nat) (r : Nat), rs.length = 16 →
        ticks (rs ++ [r]) dropStart =
          some { dropStart with
            matrix := landedBoard, current := .template (r % 7), pos := ⟨5, 0⟩ }) ∧
      (∀ y < 20, ∀ x < 10,
        occupied landedBoard (y : Nat) (x : Nat) = decide (x = 5 ∧ 16 ≤ y)) ∧
      (∀ i < 7, ({ dropStart with current := .template i } : game).cur = catalog.getD i ⟨[]⟩) := by
  refine ⟨by decide, by decide, rfl, rfl, rfl, ?_, ?_, by decide, by decide⟩
  · intro rs hrs
    have := ticks_fallen rs 0 (by omega)
    simpa [fallen] using this
  · intro rs r hrs
    rw [ticks_append, show dropStart = fallen 0 from rfl, ticks_fallen rs 0 (by omega)]
    simp only [Option.some_bind, ticks, hrs]
    rw [update_draw_mod]
    have := fallen_lands (r % 7) (Nat.mod_lt r (by decide))
    simpa using this

theorem drop_scenario_witness :
    (List.replicate 16 0).length ≤ 16 ∧
      ticks (List.replicate 16 0) dropStart = some { dropStart with pos := ⟨5, 16⟩ } :=
  ⟨by decide, drop_scenario.2.2.2.2.2.1 (List.replicate 16 0) (by decide)⟩

set_option maxRecDepth 100000 in
/-- C8, counterexample: the play `twelveLines` from init ends with a tick, and after it
the line count is 12 while the level is still 0, not floor(12 / 10) = 1. -/
theorem level_lags_behind :
    twelveLines.getLast? = some (Event.tick 0) ∧
      ((start 0).bind (play twelveLines)).map
          (fun g => (g.lines, g.level, g.lines / 10, decide (g.level = g.lines / 10))) =
        some (12, 0, 1, false) := by
  decide

theorem update_eq (g : game) (r : Nat) (hover : g.over = false) :
    g.update r =
      match ({ g with
          level := g.nextLevel, pos := ⟨g.pos.x, add64 g.pos.y 1⟩ } : game).collides with
      | none => none
      | some true =>
        (({ g with
          level := g.nextLevel, pos := ⟨g.pos.x, add64 g.pos.y 1⟩ } : game).lockAndSpawn r).map
            game.clear
      | some false =>
        some ({ g with
          level := g.nextLevel, pos := ⟨g.pos.x, add64 g.pos.y 1⟩ } : game).clear := by
  unfold game.update game.nextLevel
  rw [if_neg (by simp [hover])]
  by_cases hl : Int.tdiv g.lines 10 > g.level
  · rw [if_pos hl, if_pos hl]
  · rw [if_neg hl, if_neg hl]

theorem update_cases (g : game) (r : Nat) (hover : g.over = false) :
    g.update r =
      match collidesLoop g.matrix ⟨g.pos.x, g.pos.y + 1⟩ g.cur.points with
      | none => none
      | some false =>
        some ({ g with level := g.nextLevel, pos := ⟨g.pos.x, add64 g.pos.y 1⟩ } : game).clear
      | some true =>
        match addLoop g.pos g.cur.points g.matrix with
        | none => none
        | some m =>
          if g.tetrominos.length = 0 then none
          else
            match m.head? with
            | none => none
            | some row0 =>
              (collidesLoop m ⟨Int.tdiv (row0.length : Int) 2, 0⟩
                (g.tetrominos.getD (r % g.tetrominos.length) ⟨[]⟩).points).map
                  fun c => (g.spawned m row0 r c).clear := by
  rw [update_eq g r hover]
  have hcol : ({ g with
      level := g.nextLevel, pos := ⟨g.pos.x, add64 g.pos.y 1⟩ } : game).collides =
      collidesLoop g.matrix ⟨g.pos.x, g.pos.y + 1⟩ g.cur.points :=
    collidesLoop_congr g.matrix ⟨g.pos.x, add64 g.pos.y 1⟩ ⟨g.pos.x, g.pos.y + 1⟩ rfl
      (wrap64_wrap64 _) g.cur.points
  rw [hcol]
  cases hc : collidesLoop g.matrix ⟨g.pos.x, g.pos.y + 1⟩ g.cur.points with
  | none => rfl
  | some c =>
    cases c with
    | false => rfl
    | true =>
      simp only
      have hlock : addLoop ⟨g.pos.x, sub64 (add64 g.pos.y 1) 1⟩ g.cur.points g.matrix =
          addLoop g.pos g.cur.points g.matrix :=
        addLoop_congr ⟨g.pos.x, sub64 (add64 g.pos.y 1) 1⟩ g.pos rfl (sub64_add64 _)
          g.cur.points g.matrix
      unfold game.lockAndSpawn game.add
      have hcur : ({ g with
          level := g.nextLevel,
          pos := ⟨g.pos.x, sub64 (add64 g.pos.y 1) 1⟩ } : game).cur = g.cur := rfl
      simp only [hcur, hlock]
      cases hadd : addLoop g.pos g.cur.points g.matrix with
      | none => rfl
      | some m =>
        simp only [Option.map_some']
        by_cases ht : g.tetrominos.length = 0
        · simp [ht]
        · simp only [ht, if_false]
          cases hhead : m.head? with
          | none => rfl
          | some row0 =>
            simp only [game.collides, game.cur, Option.map_map]
            congr 1
            funext c
            cases c
            · simp only [Function.comp, game.spawned]
              congr 1
              cases g
              simp only at hover
              subst hover
              rfl
            · rfl

theorem topFull_over : ∀ i < 7, ∀ j < 7,
    ((topFull i).update j).map (fun g => (g.over, g.lines, g.score)) = some (true, 2, 400) := by
  decide

/-- C11: a tick on a state with over = false that returns ends with over = true exactly
when the piece collides one row down and, the piece being locked at its position, the
drawn catalog piece collides at the spawn position (width / 2, 0); otherwise over is
still false. With the two top rows of the 20 x 10 board full and any catalog piece at
(5, 0), the tick returns with over = true whatever piece is drawn. -/
theorem over_iff_spawn_collides (g g1 : game) (r : Nat) (hplay : g.over = false)
    (h : g.update r = some g1) :
    (g1.over = true ↔
      (({ g with pos := ⟨g.pos.x, g.pos.y + 1⟩ } : game).collides = some true ∧
        ∃ m row0, (g.add).map game.matrix = some m ∧ m.head? = some row0 ∧
          ({ g with
            matrix := m, current := .template (r % g.tetrominos.length),
            pos := ⟨Int.tdiv (row0.length : Int) 2, 0⟩ } : game).collides = some true)) ∧
      ∀ i < 7, ∀ j : Nat, ((topFull i).update j).map game.over = some true := by
  refine ⟨?_, ?_⟩
  · rw [update_cases g r hplay] at h
    have hgrav : ({ g with pos := ⟨g.pos.x, g.pos.y + 1⟩ } : game).collides =
        collidesLoop g.matrix ⟨g.pos.x, g.pos.y + 1⟩ g.cur.points := rfl
    rw [hgrav]
    cases hc : collidesLoop g.matrix ⟨g.pos.x, g.pos.y + 1⟩ g.cur.points with
    | none => rw [hc] at h; cases h
    | some c =>
      rw [hc] at h
      cases c with
      | false =>
        simp only [Option.some.injEq] at h
        subst h
        rw [(clear_frame _).1]
        simp [hplay]
      | true =>
        simp only at h
        unfold game.add
        cases hadd : addLoop g.pos g.cur.points g.matrix with
        | none => rw [hadd] at h; cases h
        | some m =>
          rw [hadd] at h
          simp only at h
          split at h
          · cases h
          · cases hhead : m.head? with
            | none => rw [hhead] at h; cases h
            | some row0 =>
              rw [hhead] at h
              simp only [Option.map_eq_some'] at h
              obtain ⟨c, hspawn, rfl⟩ := h
              rw [(clear_frame _).1]
              have hsp : ({ g with
                  matrix := m, current := .template (r % g.tetrominos.length),
                  pos := ⟨Int.tdiv (row0.length : Int) 2, 0⟩ } : game).collides = some c := by
                simpa [game.collides, game.cur] using hspawn
              constructor
              · intro hover
                have hct : c = true := hover
                subst hct
                exact ⟨rfl, m, row0, rfl, hhead, hsp⟩
              · rintro ⟨_, m1, row1, hm1, hhead1, hcol1⟩
                simp only [Option.map_some', Option.some.injEq] at hm1
                subst hm1
                rw [hhead] at hhead1
                simp only [Option.some.injEq] at hhead1
                subst hhead1
                rw [hsp] at hcol1
                simp only [Option.some.injEq] at hcol1
                subst hcol1
                rfl
  · intro i hi j
    rw [update_draw_mod]
    have := topFull_over i hi (j % 7) (Nat.mod_lt j (by decide))
    have ht : (topFull i).tetrominos.length = 7 := rfl
    rw [ht]
    cases hu : (topFull i).update (j % 7) with
    | none => rw [hu] at this; cases this
    | some g2 =>
      rw [hu] at this
      simp only [Option.map_some', Option.some.injEq, Prod.mk.injEq] at this
      simp [this.1]

theorem over_iff_spawn_collides_witness :
    (topFull 0).over = false ∧ (topFull 0).update 0 = some topFullEnd ∧
      (topFullEnd.over = true ↔
        (({ topFull 0 with pos := ⟨(topFull 0).pos.x, (topFull 0).pos.y + 1⟩ } : game).collides
            = some true ∧
          ∃ m row0, ((topFull 0).add).map game.matrix = some m ∧ m.head? = some row0 ∧
            ({ topFull 0 with
              matrix := m, current := .template (0 % (topFull 0).tetrominos.length),
              pos := ⟨Int.tdiv (row0.length : Int) 2, 0⟩ } : game).collides = some true)) :=
  ⟨rfl, by decide, (over_iff_spawn_collides (topFull 0) topFullEnd 0 rfl (by decide)).1⟩

/-- C13: in a state with over = true, update returns the state it was given: board,
active piece, position, score, line count, level, over flag and catalog are unchanged. -/
theorem update_over_noop (g : game) (r : Nat) (hover : g.over = true) :
    g.update r = some g := by
  unfold game.update
  rw [if_pos hover]

theorem update_over_noop_witness :
    ({ nineteenFull with over := true } : game).over = true ∧
      ({ nineteenFull with over := true } : game).update 3 =
        some { nineteenFull with over := true } :=
  ⟨rfl, update_over_noop { nineteenFull with over := true } 3 rfl⟩

/-- C12, failing input: from init with the I piece, the keys a (five iterations) and w
leave a state in which input has returned, with piece cells at x = -1 and x = -2; the
tick that follows panics in add (index out of range). -/
theorem tick_panics_after_rotate :
    ((start 0).bind (play rotateAtWall.dropLast)).map
        (fun g => (g.pos, g.cur.points, g.over)) =
      some (⟨0, 5⟩, [⟨1, 1⟩, ⟨0, 1⟩, ⟨-1, 1⟩, ⟨-2, 1⟩], false) ∧
      rotateAtWall.getLast? = some (Event.tick 0) ∧
      (start 0).bind (play rotateAtWall) = none ∧
      ((start 0).bind (play rotateAtWall.dropLast)).map
        (fun g => ({ g with pos := ⟨g.pos.x, g.pos.y + 1⟩ } : game).collides) =
          some (some true) ∧
      ((start 0).bind (play rotateAtWall.dropLast)).map game.add = some none := by
  decide

/-- C14, failing input: init draws the I piece and one rotate key follows; catalog entry
0 then holds the rotated points (1,1)(0,1)(-1,1)(-2,1), not the I template. -/
theorem rotate_writes_catalog :
    (start 0).map (fun g => g.tetrominos[0]?) =
        some (some ⟨[⟨0, 0⟩, ⟨0, 1⟩, ⟨0, 2⟩, ⟨0, 3⟩]⟩) ∧
      ((start 0).bind (play [Event.key 'w'])).map (fun g => g.tetrominos[0]?) =
        some (some ⟨[⟨1, 1⟩, ⟨0, 1⟩, ⟨-1, 1⟩, ⟨-2, 1⟩]⟩) ∧
      ((start 0).bind (play [Event.key 'w', Event.tick 0, Event.key 'w', Event.tick 0,
          Event.key 'w', Event.tick 0, Event.key 'w', Event.tick 0])).map
        (fun g => g.tetrominos[0]?) =
        some (some ⟨[⟨0, -2⟩, ⟨0, -1⟩, ⟨0, 0⟩, ⟨0, 1⟩]⟩) := by
  decide

/-- C15, counterexample: on the board with the two top rows full, the tick that ends the
game leaves line count 2 and score 400, while the state right after locking has line
count 0, score 0 and a different board: the tick clears rows after setting over. -/
theorem game_over_tick_still_clears :
    ((topFull 0).update 0).map (fun g => (g.over, g.lines, g.score)) = some (true, 2, 400) ∧
      ((topFull 0).add).map (fun g => (g.lines, g.score)) = some (0, 0) ∧
      ((topFull 0).update 0).map game.matrix ≠ ((topFull 0).add).map game.matrix := by
  decide

theorem filter_not_full_self (m : List (List Int)) (hno : ∀ row ∈ m, isFull row = false) :
    m.filter (fun row => !isFull row) = m := by
  rw [List.filter_eq_self]
  intro row hrow
  simp [hno row hrow]

/-- C15, amended: when a tick on a state with over = false and a rectangular board of
width w >= 1 ends with over = true, the piece was locked into a board m and clear ran on
m afterwards: with k the number of full rows of m, the final board is k empty rows
followed by the rows of m that are not full, and for k > 0 the line count has grown by k
and the score by 100 << k, in 64-bit wrap-around arithmetic. Board, line count and score
are those of the state right after locking exactly when m has no full row. -/
theorem game_over_tick_clears (g g1 : game) (r : Nat) (w : Nat) (hw : 0 < w)
    (hrect : rectangular g.matrix w) (hplay : g.over = false)
    (h : g.update r = some g1) (hover : g1.over = true) :
    ∃ m, (g.add).map game.matrix = some m ∧
      g1.matrix = List.replicate (m.filter isFull).length (List.replicate w 0) ++
          m.filter (fun row => !isFull row) ∧
      g1.lines = (if 0 < (m.filter isFull).length then
          add64 g.lines ((m.filter isFull).length : Int) else g.lines) ∧
      g1.score = (if 0 < (m.filter isFull).length then
          add64 g.score (shl64 100 (m.filter isFull).length) else g.score) ∧
      ((g1.matrix = m ∧ g1.lines = g.lines ∧ g1.score = g.score) ↔
        ∀ row ∈ m, isFull row = false) := by
  rw [update_cases g r hplay] at h
  cases hc : collidesLoop g.matrix ⟨g.pos.x, g.pos.y + 1⟩ g.cur.points with
  | none => rw [hc] at h; cases h
  | some c =>
    rw [hc] at h
    cases c with
    | false =>
      simp only [Option.some.injEq] at h
      subst h
      rw [(clear_frame _).1] at hover
      simp [hplay] at hover
    | true =>
      simp only at h
      unfold game.add
      cases hadd : addLoop g.pos g.cur.points g.matrix with
      | none => rw [hadd] at h; cases h
      | some m =>
        rw [hadd] at h
        simp only at h
        split at h
        · cases h
        · cases hhead : m.head? with
          | none => rw [hhead] at h; cases h
          | some row0 =>
            rw [hhead] at h
            simp only [Option.map_eq_some'] at h
            obtain ⟨c, _, rfl⟩ := h
            obtain ⟨hl1, _⟩ := addLoop_some _ _ _ _ hadd
            obtain ⟨r1, _⟩ := rectangular_of_lengths g.matrix m w hl1 hrect
            have e1 : (g.spawned m row0 r c).matrix = m := rfl
            obtain ⟨f1, f2, f3⟩ := clear_matrix_lines (g.spawned m row0 r c) w
              (by rw [e1]; exact r1)
            obtain ⟨_, _, b3⟩ := clear_board (g.spawned m row0 r c) w hw (by rw [e1]; exact r1)
            refine ⟨m, rfl, f1, f2, f3, ?_⟩
            constructor
            · rintro ⟨hm, _, _⟩
              rw [hm] at b3
              exact b3
            · intro hno
              have hid := clear_eq_self (g.spawned m row0 r c) hno
              rw [hid]
              exact ⟨rfl, rfl, rfl⟩

theorem game_over_tick_clears_witness :
    0 < 10 ∧ rectangular (topFull 0).matrix 10 ∧
      (topFull 0).over = false ∧ (topFull 0).update 0 = some topFullEnd ∧
      topFullEnd.over = true ∧
      ∃ m, ((topFull 0).add).map game.matrix = some m ∧
        topFullEnd.matrix = List.replicate (m.filter isFull).length (List.replicate 10 0) ++
          m.filter (fun row => !isFull row) :=
  ⟨by decide, by decide, rfl, by decide, rfl, by
    obtain ⟨m, h1, h2, _⟩ :=
      game_over_tick_clears (topFull 0) topFullEnd 0 10 (by decide) (by decide) rfl
        (by decide) rfl
    exact ⟨m, h1, h2⟩⟩

theorem start_eq (r : Nat) :
    start r = some { dropStart with current := .template (r % 7) } := by
  rfl

theorem start_shape (r : Nat) :
    ({ dropStart with current := .template (r % 7) } : game).shape := by
  have d1 : dropStart.matrix.length = 20 := by decide
  have d2 : rectangular dropStart.matrix 10 := by decide
  have d3 : ∀ row ∈ dropStart.matrix, isFull row = false := by decide
  have d4 : dropStart.tetrominos.length = 7 := by decide
  have d5 : ∀ b ∈ dropStart.tetrominos, b.points.length = 4 := by decide
  exact ⟨d1, d2, d3, d4, d5, ⟨r % 7, Nat.mod_lt r (by decide), rfl⟩⟩

theorem shape_cur_length (g : game) (hs : g.shape) : g.cur.points.length = 4 := by
  obtain ⟨_, _, _, hlen, hall, ⟨i, hi, hc⟩⟩ := hs
  have hi2 : i < g.tetrominos.length := by omega
  have : g.cur = g.tetrominos[i] := by
    simp [game.cur, hc, List.getD_eq_getElem?_getD, List.getElem?_eq_getElem hi2]
  rw [this]
  exact hall _ (List.getElem_mem hi2)

theorem rotateCurrent_shape (g g1 : game) (hs : g.shape) (h : g.rotateCurrent = some g1) :
    g1.shape ∧ g1.lines = g.lines ∧ g1.level = g.level := by
  have hlen4 := shape_cur_length g hs
  obtain ⟨h1, h2, h3, h4, h5, ⟨i, hi, hc⟩⟩ := hs
  have hne : g.cur.points ≠ [] := by
    intro h0; rw [h0] at hlen4; cases hlen4
  unfold game.rotateCurrent at h
  rw [hc] at h
  simp only [rotate_eq g.cur hne, Option.map_some', Option.some.injEq] at h
  subst h
  refine ⟨⟨h1, h2, h3, by simpa using h4, ?_, ⟨i, hi, rfl⟩⟩, rfl, rfl⟩
  intro b hb
  rcases List.mem_or_eq_of_mem_set hb with hb | rfl
  · exact h5 b hb
  · simpa using hlen4

theorem move_shape (g g1 : game) (q back : point) (hs : g.shape)
    (h : ((({ g with pos := q } : game).collides).map fun c =>
        if c then ({ g with pos := back } : game) else { g with pos := q }) = some g1) :
    g1.shape ∧ g1.lines = g.lines ∧ g1.level = g.level := by
  simp only [Option.map_eq_some'] at h
  obtain ⟨c, _, rfl⟩ := h
  cases c <;> exact ⟨hs, rfl, rfl⟩

theorem input_shape (g g1 : game) (c : Char) (hs : g.shape) (h : g.input c = some g1) :
    g1.shape ∧ g1.lines = g.lines ∧ g1.level = g.level := by
  unfold game.input at h
  split at h
  · exact rotateCurrent_shape g g1 hs h
  · split at h
    · exact move_shape g g1 _ _ hs h
    · split at h
      · exact move_shape g g1 _ _ hs h
      · split at h
        · exact move_shape g g1 _ _ hs h
        · split at h
          · simp only [Option.some.injEq] at h
            subst h
            exact ⟨hs, rfl, rfl⟩
          · simp only [Option.some.injEq] at h
            subst h
            exact ⟨hs, rfl, rfl⟩

theorem update_facts (g g1 : game) (r : Nat) (w : Nat) (hw : 0 < w)
    (hrect : rectangular g.matrix w) (hno : ∀ row ∈ g.matrix, isFull row = false)
    (hover : g.over = false) (h : g.update r = some g1) :
    rectangular g1.matrix w ∧ g1.matrix.length = g.matrix.length ∧
      (∀ row ∈ g1.matrix, isFull row = false) ∧
      g1.level = g.nextLevel ∧ g1.tetrominos = g.tetrominos ∧
      (g1.current = g.current ∨ g1.current = .template (r % g.tetrominos.length)) ∧
      ∃ m : List (List Int), (m = g.matrix ∨ (g.add).map game.matrix = some m) ∧
        (m.filter isFull).length ≤ g.cur.points.length ∧
        g1.matrix = List.replicate (m.filter isFull).length (List.replicate w 0) ++
          m.filter (fun row => !isFull row) ∧
        g1.lines = (if 0 < (m.filter isFull).length then
          wrap64 (g.lines + ((m.filter isFull).length : Int)) else g.lines) := by
  rw [update_cases g r hover] at h
  cases hc : collidesLoop g.matrix ⟨g.pos.x, g.pos.y + 1⟩ g.cur.points with
  | none => rw [hc] at h; cases h
  | some c =>
    rw [hc] at h
    cases c with
    | false =>
      simp only [Option.some.injEq] at h
      have hid := clear_eq_self
        ({ g with level := g.nextLevel, pos := ⟨g.pos.x, add64 g.pos.y 1⟩ } : game) hno
      rw [hid] at h
      subst h
      have hnil := filter_isFull_nil g.matrix hno
      refine ⟨hrect, rfl, hno, rfl, rfl, Or.inl rfl, g.matrix, Or.inl rfl, ?_, ?_, ?_⟩
      · rw [hnil]; simp
      · rw [hnil, filter_not_full_self g.matrix hno]; simp
      · rw [hnil]; simp
    | true =>
      simp only at h
      cases hadd : addLoop g.pos g.cur.points g.matrix with
      | none => rw [hadd] at h; cases h
      | some m =>
        rw [hadd] at h
        simp only at h
        split at h
        · cases h
        · cases hhead : m.head? with
          | none => rw [hhead] at h; cases h
          | some row0 =>
            rw [hhead] at h
            simp only [Option.map_eq_some'] at h
            obtain ⟨c, _, rfl⟩ := h
            obtain ⟨hl1, hl2⟩ := addLoop_some _ _ _ _ hadd
            obtain ⟨r1, r2⟩ := rectangular_of_lengths g.matrix m w hl1 hrect
            rw [filter_isFull_nil g.matrix hno] at hl2
            simp only [List.length_nil, zero_add] at hl2
            have e1 : (g.spawned m row0 r c).matrix = m := rfl
            obtain ⟨c1, c2, c3⟩ := clear_board (g.spawned m row0 r c) w hw
              (by rw [e1]; exact r1)
            obtain ⟨f1, f2, _⟩ := clear_matrix_lines (g.spawned m row0 r c) w
              (by rw [e1]; exact r1)
            obtain ⟨_, k2, k3, k4, _⟩ := clear_frame (g.spawned m row0 r c)
            rw [e1] at c1
            refine ⟨c2, by omega, c3, k2, k3, Or.inr k4, m,
              Or.inr (by simp [game.add, hadd]), hl2, f1, f2⟩

theorem update_shape (g g1 : game) (r : Nat) (hs : g.shape) (hover : g.over = false)
    (h : g.update r = some g1) :
    g1.shape ∧ g1.level = g.nextLevel ∧
      ∃ k : Nat, k ≤ 4 ∧
        g1.lines = (if 0 < k then wrap64 (g.lines + (k : Int)) else g.lines) := by
  have hlen4 := shape_cur_length g hs
  obtain ⟨h1, h2, h3, h4, h5, ⟨i, hi, hc⟩⟩ := hs
  obtain ⟨u1, u2, u3, u4, u5, u6, m, _, um, _, ul⟩ :=
    update_facts g g1 r 10 (by decide) h2 h3 hover h
  refine ⟨⟨by omega, u1, u3, by rw [u5]; exact h4, by rw [u5]; exact h5, ?_⟩, u4,
    (m.filter isFull).length, by omega, ul⟩
  rcases u6 with u6 | u6
  · exact ⟨i, hi, by rw [u6]; exact hc⟩
  · exact ⟨r % 7, Nat.mod_lt r (by decide), by rw [u6, h4]⟩

theorem step_shape (g g1 : game) (e : Event) (hs : g.shape) (h : g.step e = some g1) :
    g1.shape := by
  cases e with
  | key c => exact (input_shape g g1 c hs h).1
  | tick r =>
    simp only [game.step] at h
    cases hover : g.over with
    | false => exact (update_shape g g1 r hs hover h).1
    | true =>
      unfold game.update at h
      simp only [hover, if_true, Option.some.injEq] at h
      subst h
      exact hs

theorem play_shape (es : List Event) :
    ∀ g g1 : game, g.shape → play es g = some g1 → g1.shape := by
  induction es with
  | nil =>
    intro g g1 hs h
    simp only [play, Option.some.injEq] at h
    subst h
    exact hs
  | cons e es ih =>
    intro g g1 hs h
    simp only [play] at h
    cases hstep : g.step e with
    | none => rw [hstep] at h; cases h
    | some g2 =>
      rw [hstep, Option.some_bind] at h
      exact ih g2 g1 (step_shape g g2 e hs hstep) h

theorem sound_shape (g : game) (hs : g.sound) : g.shape := by
  obtain ⟨h1, h2, h3, h4, h5, h6, _⟩ := hs
  exact ⟨h1, h2, h3, h4, h5, h6⟩

theorem update_sound (g g1 : game) (r : Nat) (hs : g.sound)
    (hb : g.lines + 4 < 9223372036854775808) (hover : g.over = false)
    (h : g.update r = some g1) :
    g1.sound ∧ g1.level = g.lines / 10 ∧ g.lines ≤ g1.lines ∧ g1.lines ≤ g.lines + 4 := by
  obtain ⟨s1, s2, k, hk, hl⟩ := update_shape g g1 r (sound_shape g hs) hover h
  obtain ⟨_, _, _, _, _, _, h7, h8, h9⟩ := hs
  have hlines : 0 ≤ g.lines := by omega
  have htdiv : Int.tdiv g.lines 10 = g.lines / 10 := Int.tdiv_eq_ediv hlines (by decide)
  have hlevel : g.nextLevel = g.lines / 10 := by
    unfold game.nextLevel
    rw [htdiv]
    split
    · rw [add64_eq _ _ (by unfold isInt64; omega)]
      omega
    · omega
  have hl2 : g1.lines = g.lines + (k : Int) := by
    rw [hl]
    split
    · exact wrap64_of_isInt64 _ (by unfold isInt64; omega)
    · have : k = 0 := by omega
      simp [this]
  rw [hlevel] at s2
  obtain ⟨a1, a2, a3, a4, a5, a6⟩ := s1
  refine ⟨⟨a1, a2, a3, a4, a5, a6, ?_, ?_, ?_⟩, s2, ?_, ?_⟩ <;> omega

theorem step_sound (g g1 : game) (e : Event) (hs : g.sound)
    (hb : g.lines + 4 < 9223372036854775808) (h : g.step e = some g1) :
    g1.sound ∧ g1.lines ≤ g.lines + 4 := by
  cases e with
  | key c =>
    obtain ⟨s1, s2, s3⟩ := input_shape g g1 c (sound_shape g hs) h
    obtain ⟨_, _, _, _, _, _, h7, h8, h9⟩ := hs
    obtain ⟨a1, a2, a3, a4, a5, a6⟩ := s1
    refine ⟨⟨a1, a2, a3, a4, a5, a6, ?_, ?_, ?_⟩, ?_⟩ <;> omega
  | tick r =>
    simp only [game.step] at h
    cases hover : g.over with
    | false =>
      have := update_sound g g1 r hs hb hover h
      exact ⟨this.1, this.2.2.2⟩
    | true =>
      unfold game.update at h
      simp only [hover, if_true, Option.some.injEq] at h
      subst h
      exact ⟨hs, by omega⟩

theorem play_sound (es : List Event) :
    ∀ (g g1 : game) (n : Nat), g.sound → g.lines ≤ 4 * (n : Int) →
      n + es.length ≤ 1152921504606846976 → play es g = some g1 →
      g1.sound ∧ g1.lines ≤ 4 * ((n + es.length : Nat) : Int) := by
  induction es with
  | nil =>
    intro g g1 n hs hl _ h
    simp only [play, Option.some.injEq] at h
    subst h
    exact ⟨hs, by simpa using hl⟩
  | cons e es ih =>
    intro g g1 n hs hl hn h
    simp only [play] at h
    simp only [List.length_cons] at hn
    cases hstep : g.step e with
    | none => rw [hstep] at h; cases h
    | some g2 =>
      rw [hstep, Option.some_bind] at h
      obtain ⟨s2, l2⟩ := step_sound g g2 e hs (by omega) hstep
      have := ih g2 g1 (n + 1) s2 (by push_cast; omega) (by omega) h
      refine ⟨this.1, ?_⟩
      have h2 := this.2
      simp only [List.length_cons]
      have e3 : n + 1 + es.length = n + (es.length + 1) := by omega
      rw [e3] at h2
      exact h2

/-- C8, amended: in the state produced by init the level is floor(lines / 10); in every
state of a play from init of at most 2^60 events (any keys, any ticks, any draws) the
level is floor(lines / 10) or one less; and a tick that starts with over = false ends
with the level equal to floor(L / 10), L the line count at its start, having cleared at
most 4 rows: the rows a tick clears enter the level only at the next tick. (The bound
keeps the 64-bit line count, which grows by at most 4 per event, from wrapping.) -/
theorem level_follows_lines (r0 : Nat) (es : List Event) (g : game)
    (hlen : es.length ≤ 1152921504606846976)
    (h : (start r0).bind (play es) = some g) :
    (es = [] → g.level = g.lines / 10) ∧
      g.level ≤ g.lines / 10 ∧ g.lines / 10 ≤ g.level + 1 ∧
      ∀ (r : Nat) (g1 : game), g.over = false → g.update r = some g1 →
        g1.level = g.lines / 10 ∧ g.lines ≤ g1.lines ∧ g1.lines ≤ g.lines + 4 := by
  rw [start_eq, Option.some_bind] at h
  have hsh := start_shape r0
  obtain ⟨a1, a2, a3, a4, a5, a6⟩ := hsh
  have d6 : 0 ≤ dropStart.level ∧ 10 * dropStart.level ≤ dropStart.lines ∧
      dropStart.lines < 10 * dropStart.level + 20 ∧ dropStart.lines ≤ 4 * ((0 : Nat) : Int) ∧
      dropStart.level = dropStart.lines / 10 := by decide
  have h0 : ({ dropStart with current := .template (r0 % 7) } : game).sound :=
    ⟨a1, a2, a3, a4, a5, a6, d6.1, d6.2.1, d6.2.2.1⟩
  have hp := play_sound es _ g 0 h0 d6.2.2.2.1 (by omega) h
  have hs : g.sound := hp.1
  have hl : g.lines ≤ 4 * ((0 + es.length : Nat) : Int) := hp.2
  refine ⟨?_, ?_, ?_, ?_⟩
  · intro hes
    subst hes
    simp only [play, Option.some.injEq] at h
    subst h
    exact d6.2.2.2.2
  · obtain ⟨_, _, _, _, _, _, h7, h8, h9⟩ := hs
    omega
  · obtain ⟨_, _, _, _, _, _, h7, h8, h9⟩ := hs
    omega
  · intro r g1 hover hup
    exact (update_sound g g1 r hs (by push_cast at hl; omega) hover hup).2

theorem level_follows_lines_witness :
    [Event.key 'a', Event.tick 3].length ≤ 1152921504606846976 ∧
      (start 0).bind (play [Event.key 'a', Event.tick 3]) =
        some { dropStart with pos := ⟨4, 1⟩ } ∧
      ({ dropStart with pos := ⟨4, 1⟩ } : game).level ≤
        ({ dropStart with pos := ⟨4, 1⟩ } : game).lines / 10 :=
  ⟨by decide, by decide,
    (level_follows_lines 0 [Event.key 'a', Event.tick 3] { dropStart with pos := ⟨4, 1⟩ }
      (by decide) (by decide)).2.1⟩

theorem add_safe (g : game) (w : Nat) (hrect : rectangular g.matrix w)
    (hrows : 0 < g.matrix.length) (hvalid : g.collides = some false) :
    (∀ p ∈ g.cur.points, 0 ≤ add64 g.pos.y p.y →
      (cellAt g.matrix (add64 g.pos.y p.y) (add64 g.pos.x p.x)).isSome = true) ∧
      ∃ m, addLoop g.pos g.cur.points g.matrix = some m ∧ rectangular m w ∧
        m.length = g.matrix.length := by
  have hcells := valid_cells g.matrix w hrect hrows g.pos g.cur.points hvalid
  have hin : ∀ p ∈ g.cur.points, 0 ≤ add64 g.pos.y p.y →
      (cellAt g.matrix (add64 g.pos.y p.y) (add64 g.pos.x p.x)).isSome = true :=
    fun p hp => (hcells p hp).2.2.2.2
  obtain ⟨m, hm, hlen, _⟩ := addLoop_spec g.pos g.cur.points g.matrix hin
  obtain ⟨r1, r2⟩ := rectangular_of_lengths g.matrix m w hlen hrect
  exact ⟨hin, m, hm, r1, r2⟩

/-- C19: on a rectangular board with at least one row, with a non-empty catalog and an
active piece that does not collide at its position, update returns (no index out of
range, in collides, add or clear): every piece cell with y >= 0, as the code computes
it, is a cell of the board (of the exact sums pos + p wherever these are ints), so add
at the restored position writes inside the board. (Neither the width nor the point
counts of the catalog blocks are needed.) -/
theorem tick_safe (g : game) (w : Nat) (hrect : rectangular g.matrix w)
    (hrows : 0 < g.matrix.length) (hcat : g.tetrominos ≠ [])
    (hvalid : g.collides = some false) (r : Nat) :
    (g.update r).isSome = true ∧
      (∀ p ∈ g.cur.points, 0 ≤ add64 g.pos.y p.y →
        (cellAt g.matrix (add64 g.pos.y p.y) (add64 g.pos.x p.x)).isSome = true) ∧
      (∀ p ∈ g.cur.points, isInt64 (g.pos.x + p.x) → isInt64 (g.pos.y + p.y) →
        0 ≤ g.pos.y + p.y →
        (cellAt g.matrix (g.pos.y + p.y) (g.pos.x + p.x)).isSome = true) ∧
      (g.add).isSome = true ∧
      (({ g with pos := ⟨g.pos.x, sub64 (add64 g.pos.y 1) 1⟩ } : game).add).isSome = true := by
  obtain ⟨hin, m, hm, hrm, hlm⟩ := add_safe g w hrect hrows hvalid
  have hlock : addLoop ⟨g.pos.x, sub64 (add64 g.pos.y 1) 1⟩ g.cur.points g.matrix =
      addLoop g.pos g.cur.points g.matrix :=
    addLoop_congr ⟨g.pos.x, sub64 (add64 g.pos.y 1) 1⟩ g.pos rfl (sub64_add64 _)
      g.cur.points g.matrix
  have hcur : ({ g with pos := ⟨g.pos.x, sub64 (add64 g.pos.y 1) 1⟩ } : game).cur = g.cur := rfl
  refine ⟨?_, hin, ?_, by simp [game.add, hm], by simp [game.add, hcur, hlock, hm]⟩
  · cases hover : g.over with
    | true =>
      unfold game.update
      simp [hover]
    | false =>
      rw [update_cases g r hover]
      obtain ⟨b, hb, _⟩ := collidesLoop_spec g.matrix w hrect hrows
        ⟨g.pos.x, g.pos.y + 1⟩ g.cur.points
      rw [hb]
      cases b with
      | false => rfl
      | true =>
        simp only [hm]
        have hlen : g.tetrominos.length ≠ 0 := by
          intro h0; exact hcat (List.length_eq_zero.mp h0)
        rw [if_neg hlen]
        obtain ⟨row0, rest, hmeq⟩ : ∃ row0 rest, m = row0 :: rest := by
          cases m with
          | nil => simp at hlm; omega
          | cons a l => exact ⟨a, l, rfl⟩
        have hhead : m.head? = some row0 := by simp [hmeq]
        simp only [hhead]
        obtain ⟨b2, hb2, _⟩ := collidesLoop_spec m w hrm (by omega)
          ⟨Int.tdiv (row0.length : Int) 2, 0⟩
          (g.tetrominos.getD (r % g.tetrominos.length) ⟨[]⟩).points
        rw [hb2]
        rfl
  · intro p hp hx hy h0
    have := hin p hp
    rw [add64_eq _ _ hx, add64_eq _ _ hy] at this
    exact this h0

theorem tick_safe_witness :
    rectangular dropStart.matrix 10 ∧ 0 < dropStart.matrix.length ∧
      dropStart.tetrominos ≠ [] ∧ dropStart.collides = some false ∧
      (dropStart.update 4).isSome = true :=
  ⟨by decide, by decide, by decide, by decide,
    (tick_safe dropStart 10 (by decide) (by decide) (by decide) (by decide) 4).1⟩

theorem update_board (g g1 : game) (r : Nat) (w : Nat) (hw : 0 < w)
    (hrect : rectangular g.matrix w) (hno : ∀ row ∈ g.matrix, isFull row = false)
    (h : g.update r = some g1) :
    rectangular g1.matrix w ∧ g1.matrix.length = g.matrix.length ∧
      (∀ row ∈ g1.matrix, isFull row = false) ∧
      ∃ m : List (List Int), (m = g.matrix ∨ (g.add).map game.matrix = some m) ∧
        (m.filter isFull).length ≤ g.cur.points.length ∧
        g1.matrix = List.replicate (m.filter isFull).length (List.replicate w 0) ++
          m.filter (fun row => !isFull row) ∧
        g1.lines = (if 0 < (m.filter isFull).length then
          wrap64 (g.lines + ((m.filter isFull).length : Int)) else g.lines) := by
  cases hover : g.over with
  | true =>
    unfold game.update at h
    simp only [hover, if_true, Option.some.injEq] at h
    subst h
    have hnil := filter_isFull_nil g.matrix hno
    refine ⟨hrect, rfl, hno, g.matrix, Or.inl rfl, ?_, ?_, ?_⟩
    · rw [hnil]; simp
    · rw [hnil, filter_not_full_self g.matrix hno]; simp
    · rw [hnil]; simp
  | false =>
    obtain ⟨u1, u2, u3, _, _, _, hm⟩ := update_facts g g1 r w hw hrect hno hover h
    exact ⟨u1, u2, u3, hm⟩

theorem lines_of_cleared (l l1 : Int) (k n : Nat) (hk : k ≤ n)
    (h : l1 = (if 0 < k then wrap64 (l + (k : Int)) else l))
    (hl : isInt64 l) (hn : isInt64 (l + (n : Int))) : l ≤ l1 ∧ l1 ≤ l + (n : Int) := by
  have hl2 : l1 = l + (k : Int) := by
    rw [h]
    split
    · exact wrap64_of_isInt64 _ (by unfold isInt64 at hl hn ⊢; omega)
    · have : k = 0 := by omega
      simp [this]
  omega

/-- C20: on a rectangular board of width at least 1, clear leaves no full row. Hence
every state of a play from init has a board without a full row, and a tick from a state
with such a board (any piece) returns a board without a full row, having cleared the
full rows of a board m, the board of the state or the board with the piece locked: their
number k is at most the number of points of the piece, which is 4 in a play from init,
the final board is k empty rows followed by the other rows of m, and the line count has
grown by k in 64-bit wrap-around arithmetic, so by at most 4 where that sum is an int. -/
theorem no_full_row_after_clear (g : game) (w : Nat) (hw : 0 < w)
    (hrect : rectangular g.matrix w) :
    (∀ row ∈ g.clear.matrix, isFull row = false) ∧
      (∀ (r : Nat) (g1 : game), (∀ row ∈ g.matrix, isFull row = false) →
        g.update r = some g1 →
        (∀ row ∈ g1.matrix, isFull row = false) ∧
          (∃ m : List (List Int), (m = g.matrix ∨ (g.add).map game.matrix = some m) ∧
            (m.filter isFull).length ≤ g.cur.points.length ∧
            g1.matrix = List.replicate (m.filter isFull).length (List.replicate w 0) ++
              m.filter (fun row => !isFull row) ∧
            g1.lines = (if 0 < (m.filter isFull).length then
              add64 g.lines ((m.filter isFull).length : Int) else g.lines)) ∧
          (isInt64 g.lines → isInt64 (g.lines + (g.cur.points.length : Int)) →
            g.lines ≤ g1.lines ∧ g1.lines ≤ g.lines + (g.cur.points.length : Int))) ∧
      ∀ (r0 : Nat) (es : List Event) (s : game), (start r0).bind (play es) = some s →
        (∀ row ∈ s.matrix, isFull row = false) ∧ s.cur.points.length = 4 ∧
          ∀ (r : Nat) (s1 : game), s.update r = some s1 →
            (∀ row ∈ s1.matrix, isFull row = false) ∧
              (∃ m : List (List Int), (m = s.matrix ∨ (s.add).map game.matrix = some m) ∧
                (m.filter isFull).length ≤ 4 ∧
                s1.matrix = List.replicate (m.filter isFull).length (List.replicate 10 0) ++
                  m.filter (fun row => !isFull row) ∧
                s1.lines = (if 0 < (m.filter isFull).length then
                  add64 s.lines ((m.filter isFull).length : Int) else s.lines)) ∧
              (isInt64 s.lines → isInt64 (s.lines + 4) →
                s.lines ≤ s1.lines ∧ s1.lines ≤ s.lines + 4) := by
  refine ⟨(clear_board g w hw hrect).2.2, ?_, ?_⟩
  · intro r g1 hno h
    obtain ⟨_, _, u3, m, hm, hk, hmat, hl⟩ := update_board g g1 r w hw hrect hno h
    exact ⟨u3, ⟨m, hm, hk, hmat, hl⟩, fun h1 h2 => lines_of_cleared _ _ _ _ hk hl h1 h2⟩
  · intro r0 es s hs
    rw [start_eq, Option.some_bind] at hs
    have hshape : s.shape := play_shape es _ s (start_shape r0) hs
    have h4 := shape_cur_length s hshape
    obtain ⟨_, h2, h3, _⟩ := hshape
    refine ⟨h3, h4, ?_⟩
    intro r s1 hup
    obtain ⟨_, _, u3, m, hm, hk, hmat, hl⟩ :=
      update_board s s1 r 10 (by decide) h2 h3 hup
    rw [h4] at hk
    exact ⟨u3, ⟨m, hm, hk, hmat, hl⟩,
      fun h1 h2 => lines_of_cleared _ _ _ 4 hk hl h1 (by simpa using h2)⟩

theorem no_full_row_after_clear_witness :
    0 < 10 ∧ rectangular nineteenFull.matrix 10 ∧
      ∀ row ∈ nineteenFull.clear.matrix, isFull row = false :=
  ⟨by decide, by decide, (no_full_row_after_clear nineteenFull 10 (by decide) (by decide)).1⟩

theorem tdiv_ten_le (l : Int) (h : isInt64 l) : Int.tdiv l 10 ≤ 922337203685477580 := by
  unfold isInt64 at h
  by_cases h0 : 0 ≤ l
  · rw [Int.tdiv_eq_ediv h0 (by decide)]
    omega
  · have e : l = -(-l) := by omega
    rw [e, Int.neg_tdiv, Int.tdiv_eq_ediv (by omega) (by decide)]
    omega

theorem clear_withCounters (g : game) (l v s : Int) :
    (g.withCounters l v s).clear =
      g.clear.withCounters
        (if (clearLoop g.matrix.length 0 g.matrix 0).2 > 0 then
          add64 l ((clearLoop g.matrix.length 0 g.matrix 0).2 : Int) else l) v
        (if (clearLoop g.matrix.length 0 g.matrix 0).2 > 0 then
          add64 s (shl64 100 (clearLoop g.matrix.length 0 g.matrix 0).2) else s) := by
  unfold game.clear game.withCounters
  simp only
  split <;> rfl

theorem input_withCounters (g : game) (c : Char) (l v s : Int) :
    (g.withCounters l v s).input c = (g.input c).map fun g1 => g1.withCounters l v s := by
  have hmove : ∀ q back : point,
      ((({ g.withCounters l v s with pos := q } : game).collides).map fun c =>
        if c then ({ g.withCounters l v s with pos := back } : game)
        else { g.withCounters l v s with pos := q }) =
      (((({ g with pos := q } : game).collides).map fun c =>
        if c then ({ g with pos := back } : game) else { g with pos := q }).map
          fun g1 => g1.withCounters l v s) := by
    intro q back
    have hcol : ({ g.withCounters l v s with pos := q } : game).collides =
        ({ g with pos := q } : game).collides := rfl
    rw [hcol]
    cases ({ g with pos := q } : game).collides with
    | none => rfl
    | some b => cases b <;> rfl
  unfold game.input
  by_cases h1 : c = 'w' ∨ c = 'j'
  · simp only [h1, if_true]
    unfold game.rotateCurrent
    cases hc : g.current with
    | detached b =>
      have : (g.withCounters l v s).current = .detached b := hc
      simp only [this]
      cases b.rotate <;> rfl
    | template i =>
      have : (g.withCounters l v s).current = .template i := hc
      have hcur : (g.withCounters l v s).cur = g.cur := rfl
      simp only [this, hcur]
      cases g.cur.rotate <;> rfl
  by_cases h2 : c = 'a' ∨ c = 'h'
  · simp only [h1, h2, if_true, if_false]
    exact hmove _ _
  by_cases h3 : c = 's' ∨ c = 'k'
  · simp only [h1, h2, h3, if_true, if_false]
    exact hmove _ _
  by_cases h4 : c = 'd' ∨ c = 'l'
  · simp only [h1, h2, h3, h4, if_true, if_false]
    exact hmove _ _
  by_cases h5 : c = 'q'
  · simp only [h1, h2, h3, h4, h5, if_true, if_false]
    rfl
  · simp only [h1, h2, h3, h4, h5, if_false]
    rfl

theorem nextLevel_withCounters (g : game) (l v s : Int) (hl : isInt64 l) (hv : 0 ≤ v) :
    0 ≤ (g.withCounters l v s).nextLevel := by
  have hb := tdiv_ten_le l hl
  unfold game.nextLevel
  have e1 : (g.withCounters l v s).lines = l := rfl
  have e2 : (g.withCounters l v s).level = v := rfl
  rw [e1, e2]
  split
  · rw [add64_eq _ _ (by unfold isInt64; omega)]
    omega
  · exact hv

theorem counters_after_clear (l0 l : Int) (k : Nat) (hl : isInt64 l) :
    wrap64 ((if k > 0 then add64 l (k : Int) else l) - l) =
        wrap64 ((if k > 0 then wrap64 (l0 + (k : Int)) else l0) - l0) ∧
      isInt64 (if k > 0 then add64 l (k : Int) else l) := by
  unfold isInt64 at hl ⊢
  unfold add64
  split
  · unfold wrap64
    constructor <;> omega
  · exact ⟨by simp, hl⟩

theorem update_withCounters (g g1 : game) (r : Nat) (h : g.update r = some g1)
    (l v s : Int) (hl : isInt64 l) (hv : 0 ≤ v) :
    ∃ l1 v1 s1, (g.withCounters l v s).update r = some (g1.withCounters l1 v1 s1) ∧
      wrap64 (l1 - l) = wrap64 (g1.lines - g.lines) ∧ isInt64 l1 ∧ 0 ≤ v1 := by
  cases hover : g.over with
  | true =>
    unfold game.update at h ⊢
    have ho : (g.withCounters l v s).over = true := hover
    simp only [hover, if_true, Option.some.injEq] at h
    subst h
    simp only [ho, if_true]
    exact ⟨l, v, s, rfl, by simp, hl, hv⟩
  | false =>
    have ho : (g.withCounters l v s).over = false := hover
    have e := update_cases (g.withCounters l v s) r ho
    have em : (g.withCounters l v s).matrix = g.matrix := rfl
    have ep : (g.withCounters l v s).pos = g.pos := rfl
    have ec : (g.withCounters l v s).cur = g.cur := rfl
    have et : (g.withCounters l v s).tetrominos = g.tetrominos := rfl
    rw [em, ep, ec, et] at e
    rw [update_cases g r hover] at h
    have hv1 := nextLevel_withCounters g l v s hl hv
    cases hc : collidesLoop g.matrix ⟨g.pos.x, g.pos.y + 1⟩ g.cur.points with
    | none => rw [hc] at h; cases h
    | some c =>
      rw [hc] at h e
      cases c with
      | false =>
        simp only [Option.some.injEq] at h
        simp only at e
        subst h
        have e := e.trans (congrArg some (clear_withCounters
          ({ g with level := g.nextLevel, pos := ⟨g.pos.x, add64 g.pos.y 1⟩ } : game)
          l (g.withCounters l v s).nextLevel s))
        obtain ⟨_, _, _, _, _, _, f7, _⟩ := clear_frame
          ({ g with level := g.nextLevel, pos := ⟨g.pos.x, add64 g.pos.y 1⟩ } : game)
        have hcnt := counters_after_clear g.lines l
          (clearLoop g.matrix.length 0 g.matrix 0).2 hl
        refine ⟨_, _, _, e, ?_, hcnt.2, hv1⟩
        rw [f7]
        exact hcnt.1
      | true =>
        simp only at h e
        cases hadd : addLoop g.pos g.cur.points g.matrix with
        | none => rw [hadd] at h; cases h
        | some m =>
          rw [hadd] at h e
          simp only at h e
          by_cases ht : g.tetrominos.length = 0
          · rw [if_pos ht] at h; cases h
          · rw [if_neg ht] at h e
            cases hhead : m.head? with
            | none => rw [hhead] at h; cases h
            | some row0 =>
              rw [hhead] at h e
              simp only [Option.map_eq_some'] at h
              obtain ⟨c, hsp, rfl⟩ := h
              simp only [hsp, Option.map_some'] at e
              have e := e.trans (congrArg some (clear_withCounters (g.spawned m row0 r c)
                l (g.withCounters l v s).nextLevel s))
              obtain ⟨_, _, _, _, _, _, f7, _⟩ := clear_frame (g.spawned m row0 r c)
              have e1 : (g.spawned m row0 r c).matrix = m := rfl
              have e2 : (g.spawned m row0 r c).lines = g.lines := rfl
              rw [e1] at e
              rw [e1, e2] at f7
              have hcnt := counters_after_clear g.lines l (clearLoop m.length 0 m 0).2 hl
              refine ⟨_, _, _, e, ?_, hcnt.2, hv1⟩
              rw [f7]
              exact hcnt.1

theorem step_withCounters (g g1 : game) (e : Event) (h : g.step e = some g1)
    (l v s : Int) (hl : isInt64 l) (hv : 0 ≤ v) :
    ∃ l1 v1 s1, (g.withCounters l v s).step e = some (g1.withCounters l1 v1 s1) ∧
      wrap64 (l1 - l) = wrap64 (g1.lines - g.lines) ∧ isInt64 l1 ∧ 0 ≤ v1 := by
  cases e with
  | key c =>
    simp only [game.step] at h ⊢
    rw [input_withCounters, h]
    have hfr : g1.lines = g.lines := by
      have hi := h
      unfold game.input at hi
      split at hi
      · exact (rotateCurrent_frame g g1 hi).2.2.1
      · split at hi
        · exact (move_frame g g1 _ _ hi).2.2.1
        · split at hi
          · exact (move_frame g g1 _ _ hi).2.2.1
          · split at hi
            · exact (move_frame g g1 _ _ hi).2.2.1
            · split at hi <;>
              · simp only [Option.some.injEq] at hi
                subst hi
                rfl
    exact ⟨l, v, s, rfl, by rw [hfr]; simp, hl, hv⟩
  | tick r =>
    simp only [game.step] at h ⊢
    exact update_withCounters g g1 r h l v s hl hv

theorem withCounters_twice (g : game) (a b c l v s : Int) :
    (g.withCounters a b c).withCounters l v s = g.withCounters l v s := rfl

theorem play_withCounters (es : List Event) :
    ∀ (g g1 : game), play es g = some g1 → ∀ l v s : Int, isInt64 l → 0 ≤ v →
      ∃ l1 v1 s1, play es (g.withCounters l v s) = some (g1.withCounters l1 v1 s1) ∧
        wrap64 (l1 - l) = wrap64 (g1.lines - g.lines) ∧ isInt64 l1 ∧ 0 ≤ v1 := by
  induction es with
  | nil =>
    intro g g1 h l v s hl hv
    simp only [play, Option.some.injEq] at h
    subst h
    exact ⟨l, v, s, rfl, by simp, hl, hv⟩
  | cons e es ih =>
    intro g g1 h l v s hl hv
    simp only [play] at h ⊢
    cases hstep : g.step e with
    | none => rw [hstep] at h; cases h
    | some g2 =>
      rw [hstep, Option.some_bind] at h
      obtain ⟨l2, v2, s2, hs2, hw2, hl2, hv2⟩ := step_withCounters g g2 e hstep l v s hl hv
      obtain ⟨l1, v1, s1, hs1, hw1, hl1, hv1⟩ := ih g2 g1 h l2 v2 s2 hl2 hv2
      refine ⟨l1, v1, s1, by rw [hs2, Option.some_bind]; exact hs1, ?_, hl1, hv1⟩
      generalize g1.lines = a1 at hw1 hw2 ⊢
      generalize g2.lines = a2 at hw1 hw2 ⊢
      generalize g.lines = a0 at hw1 hw2 ⊢
      unfold wrap64 at hw1 hw2 ⊢
      omega

theorem play_append (as bs : List Event) :
    ∀ g : game, play (as ++ bs) g = (play as g).bind (play bs) := by
  induction as with
  | nil => intro g; rfl
  | cons e as ih =>
    intro g
    simp only [List.cons_append, play]
    cases g.step e with
    | none => rfl
    | some g1 => simp [ih g1]

set_option maxRecDepth 100000 in
theorem fillFourRows_round :
    play fillFourRows dropStart = some (dropStart.withCounters 4 0 1600) := by
  decide

theorem rounds_play (n : Nat) :
    ∀ l v s : Int, isInt64 l → 0 ≤ v →
      ∃ v1 s1, play (rounds n) (dropStart.withCounters l v s) =
          some (dropStart.withCounters (wrap64 (l + 4 * (n : Int))) v1 s1) ∧ 0 ≤ v1 := by
  induction n with
  | zero =>
    intro l v s hl hv
    exact ⟨v, s, by simp [rounds, play, wrap64_of_isInt64 l hl], hv⟩
  | succ n ih =>
    intro l v s hl hv
    obtain ⟨l1, v1, s1, h1, hw, hl1, hv1⟩ :=
      play_withCounters fillFourRows dropStart _ fillFourRows_round l v s hl hv
    rw [withCounters_twice] at h1
    obtain ⟨v2, s2, h2, hv2⟩ := ih l1 v1 s1 hl1 hv1
    refine ⟨v2, s2, ?_, hv2⟩
    have e4 : (dropStart.withCounters 4 0 1600).lines - dropStart.lines = 4 := by decide
    rw [e4] at hw
    have hl1e : wrap64 (l1 + 4 * (n : Int)) = wrap64 (l + 4 * ((n + 1 : Nat) : Int)) := by
      push_cast
      unfold isInt64 at hl1
      generalize (n : Int) = z at *
      unfold wrap64 at hw ⊢
      omega
    rw [rounds, play_append, h1, Option.some_bind, h2, hl1e]

/-- Long plays: after 2^61 rounds of `fillFourRows` from init, each clearing four rows,
the 64-bit line count has wrapped around to -2^63 while the level is not negative, so
the level is neither floor(lines / 10) nor one less. A statement that relates level and
line count in every state of a play has to bound the length of the play. -/
theorem level_wraps_after_long_play :
    ∃ g, (start 0).bind (play (rounds 2305843009213693952)) = some g ∧
      g.lines = -9223372036854775808 ∧ 0 ≤ g.level ∧ ¬ g.level ≤ g.lines / 10 := by
  obtain ⟨v1, s1, h, hv⟩ := rounds_play 2305843009213693952 0 0 0 (by decide) (by decide)
  have hs : start 0 = some (dropStart.withCounters 0 0 0) := by rfl
  have hw : wrap64 (0 + 4 * ((2305843009213693952 : Nat) : Int)) = -9223372036854775808 := by
    decide
  rw [hw] at h
  refine ⟨_, by rw [hs, Option.some_bind]; exact h, rfl, hv, ?_⟩
  have e1 : (dropStart.withCounters (-9223372036854775808) v1 s1).lines =
      -9223372036854775808 := rfl
  have e2 : (dropStart.withCounters (-9223372036854775808) v1 s1).level = v1 := rfl
  rw [e1, e2]
  omega

end Tetris
